import Mathlib

/-!
Verification of the moodle.download browser extension (TypeScript sources)
against its natural-language specification.

The TypeScript sources are shallowly embedded: pure functions become Lean
functions over `String` / `List Char` / `List Nat` (bytes), JavaScript objects
(`Record<string, V>`) become association lists with insertion-order semantics,
JavaScript `Set<string>` becomes a `List String` used only through membership
and append, and the effectful parts of the background script (network fetches,
hashing, clock, extension storage) are parameters / oracles threaded through a
state-passing model.  JavaScript string indices are modelled as positions in
`List Char` (code points); this difference to UTF-16 code units does not affect
any of the properties proved here.
-/
namespace MoodleDl

/-! ### `sanitizeFileName` (src/shared/utils.ts)

```ts
export function sanitizeFileName(name: string): string {
  const cleaned = name
    .replace(/[\\/:*?"<>|\u0000-\u001F]/g, '_')
    .replace(/\s+/g, ' ')
    .trim();
  const fallback = 'file';
  const limited = cleaned.length > 180 ? cleaned.slice(0, 180).trim() : cleaned;
  return limited || fallback;
}
```
-/
/-- The character class `[\\/:*?"<>|\u0000-\u001F]` of the first replacement. -/
def isBadFileChar (c : Char) : Bool :=
  c = '\\' || c = '/' || c = ':' || c = '*' || c = '?' || c = '\"' ||
  c = '<' || c = '>' || c = '|' || c.toNat ≤ 31

/-- The JavaScript `\s` / `trim()` whitespace class (WhiteSpace ∪ LineTerminator). -/
def isJsWhitespace (c : Char) : Bool :=
  c = ' ' || c.toNat = 9 || c.toNat = 10 || c.toNat = 11 || c.toNat = 12 ||
  c.toNat = 13 || c.toNat = 160 || c.toNat = 5760 ||
  (8192 ≤ c.toNat && c.toNat ≤ 8202) || c.toNat = 8232 || c.toNat = 8233 ||
  c.toNat = 8239 || c.toNat = 8287 || c.toNat = 12288 || c.toNat = 65279

/-- `.replace(/[\\/:*?"<>|\u0000-\u001F]/g, '_')`. -/
def replaceBadChars (l : List Char) : List Char :=
  l.map fun c => if isBadFileChar c then '_' else c

/-- `.replace(/\s+/g, ' ')`: each maximal run of whitespace becomes one space. -/
def collapseWhitespace : List Char → List Char
  | [] => []
  | [c] => [if isJsWhitespace c then ' ' else c]
  | c :: d :: rest =>
    if isJsWhitespace c && isJsWhitespace d then collapseWhitespace (d :: rest)
    else (if isJsWhitespace c then ' ' else c) :: collapseWhitespace (d :: rest)

/-- `.trim()`: drop leading and trailing whitespace. -/
def trimWhitespace (l : List Char) : List Char :=
  ((l.dropWhile isJsWhitespace).reverse.dropWhile isJsWhitespace).reverse

/-- The `cleaned` intermediate value of `sanitizeFileName`. -/
def sanitizeCleaned (l : List Char) : List Char :=
  trimWhitespace (collapseWhitespace (replaceBadChars l))

/-- The `limited` intermediate value of `sanitizeFileName` (`cleaned.length > 180 ?
cleaned.slice(0, 180).trim() : cleaned`). -/
def sanitizeLimited (l : List Char) : List Char :=
  if 180 < (sanitizeCleaned l).length
  then trimWhitespace ((sanitizeCleaned l).take 180)
  else sanitizeCleaned l

/-- `sanitizeFileName` on the underlying character list (`limited || fallback`). -/
def sanitizeFileNameL (l : List Char) : List Char :=
  if (sanitizeLimited l).isEmpty then "file".data else sanitizeLimited l

/-- `sanitizeFileName` from src/shared/utils.ts. -/
def sanitizeFileName (s : String) : String :=
  ⟨sanitizeFileNameL s.data⟩

/-! #### Invariants of sanitized output -/
/-- Output shape of the sanitizing pipeline: no bad characters, every whitespace
character is a plain space, no two adjacent whitespace characters, no leading or
trailing whitespace, and length at most 180. -/
def Sanitized (l : List Char) : Prop :=
  (∀ c ∈ l, isBadFileChar c = false) ∧
  (∀ c ∈ l, isJsWhitespace c = true → c = ' ') ∧
  l.Chain' (fun a b => ¬(isJsWhitespace a = true ∧ isJsWhitespace b = true)) ∧
  (∀ c, l.head? = some c → isJsWhitespace c = false) ∧
  (∀ c, l.getLast? = some c → isJsWhitespace c = false) ∧
  l.length ≤ 180

/-- The relation "not both whitespace" used for the run-collapsing invariant. -/
def NotBothWs (a b : Char) : Prop :=
  ¬(isJsWhitespace a = true ∧ isJsWhitespace b = true)

/-! ### URL normalization (src/shared/utils.ts)

```ts
export function normalizeUrl(url: string, base?: string): string {
  try {
    const u = new URL(url, base || globalThis.location?.href);
    u.hash = '';
    return u.toString();
  } catch {
    return url;
  }
}
```

The platform `URL` class is modelled by `splitAtHash` / `parsePreFragment` /
`serializeUrl` below: the serialization of a URL splits at the first `#` into a
pre-fragment part and the fragment, and setting `hash = ''` and serializing
yields the canonicalized pre-fragment part.  The parser models the absolute
`scheme://host[/path][?query]` shape used by the extension (the callers in this
repository pass absolute `http(s)` resource URLs and no `base`); canonicalization
lowercases the scheme and authority and normalizes an empty path to `/`.
-/
/-- Split a character list at the first `#`: `(part before, rest incl. the #)`. -/
def splitAtHash : List Char → List Char × List Char
  | [] => ([], [])
  | c :: t =>
    if c = '#' then ([], c :: t)
    else ((splitAtHash t).1.cons c, (splitAtHash t).2)

def isAsciiAlpha (c : Char) : Bool :=
  (97 ≤ c.toNat && c.toNat ≤ 122) || (65 ≤ c.toNat && c.toNat ≤ 90)

def isAsciiDigit (c : Char) : Bool :=
  48 ≤ c.toNat && c.toNat ≤ 57

def isSchemeChar (c : Char) : Bool :=
  isAsciiAlpha c || isAsciiDigit c || c = '+' || c = '-' || c = '.'

def toLowerAscii (c : Char) : Char :=
  if 65 ≤ c.toNat && c.toNat ≤ 90 then Char.ofNat (c.toNat + 32) else c

/-- Parsed shape of the pre-fragment part of an absolute URL. -/
structure UrlModel where
  scheme : List Char
  authority : List Char
  path : List Char
  query : List Char
deriving DecidableEq

/-- A character that may appear in the authority run: anything up to the first
`/` or `?`. -/
def authChar (c : Char) : Bool := !(c = '/' || c = '?')

/-- A character that may appear in the path run: anything up to the first `?`. -/
def notQuery (c : Char) : Bool := c ≠ '?'

/-- Model of the platform URL parser on the pre-fragment part (see the section
comment): `none` models the `new URL(...)` constructor throwing. -/
def parsePreFragment (l : List Char) : Option UrlModel :=
  match l.takeWhile isSchemeChar, l.drop (l.takeWhile isSchemeChar).length with
  | s :: st, ':' :: '/' :: '/' :: rest =>
    if isAsciiAlpha s then
      if (rest.takeWhile authChar).isEmpty then none
      else
        some { scheme := (s :: st).map toLowerAscii
               authority := (rest.takeWhile authChar).map toLowerAscii
               path := (rest.drop (rest.takeWhile authChar).length).takeWhile notQuery
               query := (rest.drop (rest.takeWhile authChar).length).drop
                 ((rest.drop (rest.takeWhile authChar).length).takeWhile notQuery).length }
    else none
  | _, _ => none

/-- Model of the platform URL serializer (with the hash already cleared). -/
def serializeUrl (u : UrlModel) : List Char :=
  u.scheme ++ ':' :: '/' :: '/' :: u.authority ++
    (if u.path.isEmpty then ['/'] else u.path) ++ u.query

/-- `normalizeUrl` from src/shared/utils.ts (no-`base` form; the background
callers pass absolute resource URLs): parse, clear the hash, serialize; on a
parse failure return the input unchanged. -/
def normalizeUrl (url : String) : String :=
  match parsePreFragment (splitAtHash url.data).1 with
  | some u => ⟨serializeUrl u⟩
  | none => url

/-- Modelled from the spec: `normalizeUrlKey` is imported by
src/background/background.ts from src/shared/utils.ts but its definition is not
part of the sources available here.  Per the spec it is `normalizeIdentity`:
it "parses the URL, strips fragment, returns canonical string form" and is
"used both for archive-level deduplication and as the tracking-map key", i.e.
the same normalization as `normalizeUrl`. -/
def normalizeUrlKey (url : String) : String := normalizeUrl url

/-- The template literal `${base} (${i})${ext}` of `ensureUniquePath`. -/
def counterCandidate (base extn : String) (i : Nat) : String :=
  base ++ " (" ++ Nat.repr i ++ ")" ++ extn

/-- The `while (existing.has(...)) i += 1` loop of `ensureUniquePath`, with fuel;
`existing.length + 1` fuel always suffices (`exists_free_counter`). -/
def findFreeCounter (existing : List String) (base extn : String) : Nat → Nat → Nat
  | 0, i => i
  | fuel + 1, i =>
    if counterCandidate base extn i ∈ existing then
      findFreeCounter existing base extn fuel (i + 1)
    else i

/-- `fullPath.lastIndexOf('.')` (as `Option Nat`). -/
def lastDotIndex (l : List Char) : Option Nat :=
  match l.reverse.findIdx? (fun c => c = '.') with
  | some r => some (l.length - 1 - r)
  | none => none

/-- `dot > -1 ? fullPath.slice(0, dot) : fullPath`. -/
def uniqueBase (fullPath : String) : String :=
  match lastDotIndex fullPath.data with
  | some d => ⟨fullPath.data.take d⟩
  | none => fullPath

/-- `dot > -1 ? fullPath.slice(dot) : ''`. -/
def uniqueExt (fullPath : String) : String :=
  match lastDotIndex fullPath.data with
  | some d => ⟨fullPath.data.drop d⟩
  | none => ""

/-- `ensureUniquePath` from src/shared/utils.ts.  The returned pair is
(chosen path, updated registry). -/
def ensureUniquePath (existing : List String) (fullPath : String) : String × List String :=
  if fullPath ∈ existing then
    let i := findFreeCounter existing (uniqueBase fullPath) (uniqueExt fullPath)
      (existing.length + 1) 1
    (counterCandidate (uniqueBase fullPath) (uniqueExt fullPath) i,
      existing ++ [counterCandidate (uniqueBase fullPath) (uniqueExt fullPath) i])
  else (fullPath, existing ++ [fullPath])

/-! ### Port-stream chunking (src/background/background.ts)

```ts
const ZIP_CHUNK_SIZE = 1024 * 1024; // 1 MiB
...
const totalBytes = zipBuffer.byteLength;
const totalChunks = Math.ceil(totalBytes / ZIP_CHUNK_SIZE);
...
for (let i = 0; i < totalChunks; i += 1) {
  const start = i * ZIP_CHUNK_SIZE;
  const end = Math.min(totalBytes, start + ZIP_CHUNK_SIZE);
  const chunk = zipBuffer.slice(start, end);
  port.postMessage({ type: 'MD_ZIP_STREAM_CHUNK', index: i, data: chunk });
}
```

The `ArrayBuffer` is a `List Nat` of bytes; `slice(start, end)` is
`drop start |>.take (end - start)`, and `Math.ceil` on the exact rational
`totalBytes / ZIP_CHUNK_SIZE` is the rounded-up natural division.
-/
def ZIP_CHUNK_SIZE : Nat := 1024 * 1024

/-- `Math.ceil(totalBytes / ZIP_CHUNK_SIZE)`. -/
def totalChunksOf (totalBytes : Nat) : Nat :=
  (totalBytes + ZIP_CHUNK_SIZE - 1) / ZIP_CHUNK_SIZE

/-- The `MD_ZIP_STREAM_CHUNK` messages `(index, data)` in send order. -/
def zipStreamChunks (bytes : List Nat) : List (Nat × List Nat) :=
  (List.range (totalChunksOf bytes.length)).map fun i =>
    (i, (bytes.drop (i * ZIP_CHUNK_SIZE)).take ZIP_CHUNK_SIZE)

/-! ### `withConcurrency` (src/shared/utils.ts)

```ts
export async function withConcurrency<T, R>(items, limit, worker) {
  const results: R[] = new Array(items.length);
  let idx = 0;
  async function run(): Promise<void> {
    while (idx < items.length) {
      const current = idx;
      idx += 1;
      results[current] = await worker(items[current], current);
    }
  }
  const runners = Array.from({ length: Math.min(limit, items.length) }, () => run());
  await Promise.all(runners);
  return results;
}
```

Small-step model: JavaScript runs each synchronous section atomically, so the
claim of the next index (`const current = idx; idx += 1`) is one atomic event,
and the later `results[current] = ...` writes a slot owned exclusively by the
claiming runner; with a pure `worker` the written value is determined at claim
time.  A step of the model therefore claims the next index and fills its slot;
which of the `min(limit, length)` runners performs a step does not change the
state, so the run is the `items.length`-fold iteration of `concStep` — this is
exactly why completion order cannot affect the result.
-/
structure ConcState (β : Type) where
  idx : Nat
  log : List Nat
  results : List (Option β)

/-- `Array.from({ length: Math.min(limit, items.length) }, () => run()).length`. -/
def numRunners (limit n : Nat) : Nat := min limit n

/-- One loop iteration of a runner: claim `idx` and fill `results[idx]`
(`items[s.idx]? = some a` models the loop guard `idx < items.length`). -/
def concStep {α β : Type} (items : List α) (worker : α → Nat → β)
    (s : ConcState β) : ConcState β :=
  match items[s.idx]? with
  | some a =>
    { idx := s.idx + 1
      log := s.log ++ [s.idx]
      results := s.results.set s.idx (some (worker a s.idx)) }
  | none => s

/-- The state after `k` claim events (all runners pooled). -/
def concRun {α β : Type} (items : List α) (worker : α → Nat → β) : Nat → ConcState β
  | 0 => ⟨0, [], List.replicate items.length none⟩
  | k + 1 => concStep items worker (concRun items worker k)

/-! ### JavaScript object maps

`Record<string, V>` is modelled as an insertion-ordered association list:
JavaScript objects enumerate string keys in insertion order, and assigning to
an existing key overwrites its value in place while a new key is appended.
`Object.entries` is the list itself.
-/
/-- `m[k] = v` on a JavaScript object. -/
def objSet {V : Type} (m : List (String × V)) (k : String) (v : V) :
    List (String × V) :=
  if k ∈ m.map Prod.fst then m.map fun kv => if kv.1 = k then (k, v) else kv
  else m ++ [(k, v)]

/-- `m[k]` on a JavaScript object (`undefined` is `none`). -/
def objLookup {V : Type} (m : List (String × V)) (k : String) : Option V :=
  (m.find? fun kv => kv.1 = k).map Prod.snd

/-- `Object.keys`. -/
def objKeys {V : Type} (m : List (String × V)) : List String := m.map Prod.fst

/-! ### Tracking store migration (src/background/background.ts)

```ts
async function getTracking(): Promise<DownloadTrackingMap> {
  const map: DownloadTrackingMap = (await storage.get(STORAGE_KEYS.downloadTracking)) || {};
  let changed = false;
  const migrated: DownloadTrackingMap = {};
  for (const [k, v] of Object.entries(map)) {
    const nk = normalizeUrlKey(k);
    migrated[nk] = v;
    if (nk !== k) changed = true;
  }
  if (changed) await setTracking(migrated);
  return migrated;
}
```

The lemmas are parametric in the key normalization `nk` (the source's
`normalizeUrlKey`).
-/
/-- The `for (const [k, v] of Object.entries(map))` migration loop. -/
def migrateTracking {V : Type} (nk : String → String) (m : List (String × V)) :
    List (String × V) :=
  m.foldl (fun acc kv => objSet acc (nk kv.1) kv.2) []

/-- The `changed` flag after the loop. -/
def trackingChanged {V : Type} (nk : String → String) (m : List (String × V)) : Bool :=
  m.any fun kv => nk kv.1 ≠ kv.1

/-- `getTracking`: the migrated map it returns, together with the list of
`setTracking` persist calls it makes. -/
def getTrackingM {V : Type} (nk : String → String) (store : List (String × V)) :
    List (String × V) × List (List (String × V)) :=
  (migrateTracking nk store,
    if trackingChanged nk store then [migrateTracking nk store] else [])

/-! ### `buildZip` (src/background/background.ts)

The effect boundary of the embedding:
  * network fetches are an oracle `Nat → FetchOutcome` indexed by the position
    of the file in the deduped list (`withConcurrency` hands the worker
    `(file, index)`);
  * `crypto.subtle`'s SHA-256 (`calculateHash`) is a parameter
    `hash : List Nat → String`;
  * `Date.now()` is a parameter `now`;
  * `extractFilenameFromHeaders(resp.headers)` is a pure function of the
    response headers; its value is carried in the response model
    (`headerFileName`) since no claim constrains its internals — the source
    guarantees it is `undefined` or a `sanitizeFileName` result (never `''`),
    matching the `headerName || ...` truthiness test;
  * `expandFolderResource` (a fetch plus HTML link scraping) is an oracle
    `MoodleResource → Option (List MoodleResource)`, `none` modelling a throw;
  * popup progress messages and telemetry do not touch the build state and are
    omitted; `zip.generateAsync` serializes the entries accumulated by
    `zip.file(path, bytes)`, which the model keeps as the entry list.

`withConcurrency(files, 3, ...)` claims indices atomically in increasing order
(see the `concStep` model above), and each per-file section between `await`s
runs atomically; all properties proved below (counts, membership, per-key
lookups) are insensitive to which runner executes which file, so the fold
`processAll` processes the files in index order.
-/
structure MoodleResource where
  id : String
  name : String
  url : String
  type : String
  fileType : String
  path : String
deriving DecidableEq

/-- `dedupeResources` from src/shared/utils.ts: keep the first resource for
each `normalizeUrl`-key. -/
def dedupeAux (seen : List String) : List MoodleResource → List MoodleResource
  | [] => []
  | r :: rest =>
    if normalizeUrl r.url ∈ seen then dedupeAux seen rest
    else r :: dedupeAux (normalizeUrl r.url :: seen) rest

def dedupeResources (rs : List MoodleResource) : List MoodleResource :=
  dedupeAux [] rs

/-- Model of a settled `fetch` `Response` (see the section comment). -/
structure RespModel where
  status : Nat
  contentType : String
  headerFileName : Option String
  respUrl : String
  body : List Nat
deriving DecidableEq

/-- Outcome of one `fetchWithTimeout` call: the promise rejected (with the
error's `name`), or a settled response. -/
inductive FetchOutcome where
  | fetchError (errName : String)
  | response (r : RespModel)
deriving DecidableEq

/-- `Response.ok` (platform: status in the range 200-299). -/
def respOk (r : RespModel) : Bool :=
  decide (200 ≤ r.status) && decide (r.status < 300)

/-- `b.toLowerCase()` on an ASCII byte. -/
def lowerByte (b : Nat) : Nat :=
  if 65 ≤ b && b ≤ 90 then b + 32 else b

/-- ASCII bytes of `<!doctype html`. -/
def doctypeMarker : List Nat :=
  [60, 33, 100, 111, 99, 116, 121, 112, 101, 32, 104, 116, 109, 108]

/-- ASCII bytes of `<html`. -/
def htmlTagMarker : List Nat := [60, 104, 116, 109, 108]

/-- `String.prototype.includes` as sliding prefix search. -/
def containsSeq {α : Type} [DecidableEq α] (pat : List α) : List α → Bool
  | [] => pat.isEmpty
  | a :: rest => pat.isPrefixOf (a :: rest) || containsSeq pat rest

def containsStr (pat s : String) : Bool := containsSeq pat.data s.data

/-- `isLikelyHtml` from background.ts at byte level: `TextDecoder().decode` of
the first 64 bytes followed by `toLowerCase()` and an `includes` of an
ASCII-only pattern agrees with byte-wise ASCII lowercasing and byte-pattern
search (multi-byte UTF-8 sequences never decode to ASCII characters, and no
non-ASCII character lowercases to a character of these patterns). -/
def isLikelyHtml (r : RespModel) : Bool :=
  containsStr "text/html" r.contentType ||
  (decide (20 ≤ r.body.length) &&
    (containsSeq doctypeMarker ((r.body.take 64).map lowerByte) ||
     containsSeq htmlTagMarker ((r.body.take 64).map lowerByte)))

/-- `joinZipPath` from src/shared/utils.ts. -/
def joinZipPath (path fileName : String) : String :=
  let cleanedPath := String.intercalate "/"
    (((path.split fun c => c = '/').map sanitizeFileName).filter fun s => s ≠ "")
  if cleanedPath ≠ "" then cleanedPath ++ "/" ++ sanitizeFileName fileName
  else sanitizeFileName fileName

def isAlnumAscii (c : Char) : Bool :=
  isAsciiAlpha c || isAsciiDigit c

/-- `last.lastIndexOf('.')`-based extension extraction shared by
`getExtFromUrl` (`dot <= 0` yields `undefined`). -/
def extFromSegment (last : List Char) : Option String :=
  match lastDotIndex last with
  | none => none
  | some d =>
    if d = 0 then none
    else
      let e := (last.drop (d + 1)).map toLowerAscii
      if e.isEmpty then none else some ⟨e⟩

/-- `getExtFromUrl` from background.ts (URL parse; `undefined` on failure). -/
def getExtFromUrl (url : String) : Option String :=
  match parsePreFragment (splitAtHash url.data).1 with
  | none => none
  | some u =>
    let pathname := if u.path.isEmpty then ['/'] else u.path
    let segs := (⟨pathname⟩ : String).split fun c => c = '/'
    extFromSegment (segs.getLast?.getD "").data

/-- The `/\.[a-z0-9]{1,5}$/i` test of `ensureNameHasExt`. -/
def hasShortExt (clean : List Char) : Bool :=
  let rev := clean.reverse
  let run := rev.takeWhile isAlnumAscii
  decide (1 ≤ run.length) && decide (run.length ≤ 5) &&
    (match rev.drop run.length with
     | c :: _ => decide (c = '.')
     | [] => false)

/-- `ensureNameHasExt` from background.ts. -/
def ensureNameHasExt (name : String) (ext : Option String) : String :=
  let clean := sanitizeFileName name
  match ext with
  | none => clean
  | some e =>
    if ('.' :: e.data.map toLowerAscii).isSuffixOf (clean.data.map toLowerAscii) then clean
    else if hasShortExt clean.data then clean
    else clean ++ "." ++ e

/-- The `/\.([a-z0-9]{1,6})$/` capture of `inferStatsFileType`. -/
def statsExtCapture (fileName : String) : Option String :=
  let low := fileName.data.map toLowerAscii
  let rev := low.reverse
  let run := rev.takeWhile isAlnumAscii
  if decide (1 ≤ run.length) && decide (run.length ≤ 6) &&
      (match rev.drop run.length with
       | c :: _ => decide (c = '.')
       | [] => false) then
    some ⟨run.reverse⟩
  else none

/-- `inferStatsFileType` from background.ts. -/
def inferStatsFileType (fileName : String) (fallback : String) : String :=
  match statsExtCapture fileName with
  | some e => e
  | none => if fallback ≠ "" && fallback ≠ "file" then fallback else "file"

/-- `headerName || ensureNameHasExt(file.name, getExtFromUrl(resp.url || file.url))`. -/
def respBaseName (file : MoodleResource) (r : RespModel) : String :=
  let urlExt := getExtFromUrl (if r.respUrl = "" then file.url else r.respUrl)
  match r.headerFileName with
  | some n => n
  | none => ensureNameHasExt file.name urlExt

structure TrackEntry where
  url : String
  hash : String
  timestamp : Nat
  fileName : String
deriving DecidableEq

/-- `increment` from background.ts: `map[key] = (map[key] || 0) + 1`. -/
def increment (m : List (String × Nat)) (key : String) : List (String × Nat) :=
  objSet m key ((objLookup m key).getD 0 + 1)

/-- The mutable state shared by the fetch workers of `buildZip`. -/
structure BuildState where
  zipEntries : List (String × List Nat)
  existingPaths : List String
  tracking : List (String × TrackEntry)
  failedUrls : List String
  errorsByType : List (String × Nat)
  fileTypes : List (String × Nat)
deriving DecidableEq

/-- The tracking entry recorded for a successfully archived file. -/
def successEntry (hash : List Nat → String) (now : Nat)
    (file : MoodleResource) (r : RespModel) : TrackEntry :=
  { url := normalizeUrlKey file.url
    hash := hash r.body
    timestamp := now
    fileName := respBaseName file r }

/-- The error-kind key recorded for a failed fetch. -/
def failKind : FetchOutcome → String
  | .fetchError errName => if errName = "AbortError" then "timeout" else "network_error"
  | .response r => if respOk r = false then Nat.repr r.status else "likely_login_required"

/-- One iteration of the fetch worker of `buildZip` (the body of the
`withConcurrency(files, 3, async (file) => ...)` callback). -/
def processFile (hash : List Nat → String) (now : Nat)
    (st : BuildState) (file : MoodleResource) : FetchOutcome → BuildState
  | .fetchError errName =>
    { st with
      errorsByType := increment st.errorsByType
        (if errName = "AbortError" then "timeout" else "network_error")
      failedUrls := st.failedUrls ++ [file.url] }
  | .response r =>
    if respOk r = false then
      { st with
        errorsByType := increment st.errorsByType (Nat.repr r.status)
        failedUrls := st.failedUrls ++ [file.url] }
    else if isLikelyHtml r then
      { st with
        errorsByType := increment st.errorsByType "likely_login_required"
        failedUrls := st.failedUrls ++ [file.url] }
    else
      let baseName := respBaseName file r
      let placed := ensureUniquePath st.existingPaths (joinZipPath file.path baseName)
      { st with
        zipEntries := st.zipEntries ++ [(placed.1, r.body)]
        existingPaths := placed.2
        tracking := objSet st.tracking (normalizeUrlKey file.url)
          (successEntry hash now file r)
        fileTypes := increment st.fileTypes (inferStatsFileType baseName file.fileType) }

/-- The fetch loop over the deduped file list, in index order (see the section
comment on `withConcurrency`). -/
def processAll (hash : List Nat → String) (now : Nat) (oracle : Nat → FetchOutcome) :
    Nat → BuildState → List MoodleResource → BuildState
  | _, st, [] => st
  | i, st, f :: rest =>
    processAll hash now oracle (i + 1) (processFile hash now st f (oracle i)) rest

/-- The folder-expansion loop of `buildZip` (`expandFolderResource` oracle;
`none` models the expansion throwing, counted as `folder_expand_error`). -/
def expandPhase (expandO : MoodleResource → Option (List MoodleResource)) :
    List MoodleResource → List (String × Nat) → List MoodleResource × List (String × Nat)
  | [], errs => ([], errs)
  | r :: rest, errs =>
    if r.type = "folder" then
      match expandO r with
      | some ex =>
        let t := expandPhase expandO rest errs
        (ex ++ t.1, t.2)
      | none => expandPhase expandO rest (increment errs "folder_expand_error")
    else
      let t := expandPhase expandO rest errs
      (r :: t.1, t.2)

/-- The deduped, folder-expanded, re-deduped file list a build fetches. -/
def buildFiles (expandO : MoodleResource → Option (List MoodleResource))
    (rs : List MoodleResource) : List MoodleResource :=
  dedupeResources (expandPhase expandO (dedupeResources rs) []).1

/-- The observable result of a `MD_BUILD_ZIP` build: the handler replies
`ok: true` whenever `buildZip` resolves, so `ok` is `true` on every completed
build; `persistLog` records the `setTracking` calls in order. -/
structure BuildResult where
  zipEntries : List (String × List Nat)
  failedUrls : List String
  successfulCount : Nat
  totalFiles : Nat
  tracking : List (String × TrackEntry)
  persistLog : List (List (String × TrackEntry))
  ok : Bool
deriving DecidableEq

/-- `buildZip` from background.ts. -/
def buildZip (hash : List Nat → String) (now : Nat)
    (expandO : MoodleResource → Option (List MoodleResource))
    (oracle : Nat → FetchOutcome)
    (store : List (String × TrackEntry))
    (resources : List MoodleResource) : BuildResult :=
  let tr := getTrackingM normalizeUrlKey store
  let expanded := expandPhase expandO (dedupeResources resources) []
  let files := dedupeResources expanded.1
  let st := processAll hash now oracle 0
    { zipEntries := []
      existingPaths := []
      tracking := tr.1
      failedUrls := []
      errorsByType := expanded.2
      fileTypes := [] } files
  { zipEntries := st.zipEntries
    failedUrls := st.failedUrls
    successfulCount := files.length - st.failedUrls.length
    totalFiles := files.length
    tracking := st.tracking
    persistLog := tr.2 ++ [st.tracking]
    ok := true }

/-- A fetch outcome that `buildZip` archives: a settled 2xx response not
classified as HTML. -/
def cleanSuccess : FetchOutcome → Bool
  | .fetchError _ => false
  | .response r => respOk r && !isLikelyHtml r

/-- The per-index failed URLs accumulated by the fetch loop. -/
def failedOf (oracle : Nat → FetchOutcome) : Nat → List MoodleResource → List String
  | _, [] => []
  | i, f :: rest =>
    if cleanSuccess (oracle i) then failedOf oracle (i + 1) rest
    else f.url :: failedOf oracle (i + 1) rest

/-- The initial build state of `buildZip` (after `getTracking` and folder
expansion). -/
def buildState0 (expandO : MoodleResource → Option (List MoodleResource))
    (store : List (String × TrackEntry)) (rs : List MoodleResource) : BuildState :=
  { zipEntries := []
    existingPaths := []
    tracking := (getTrackingM normalizeUrlKey store).1
    failedUrls := []
    errorsByType := (expandPhase expandO (dedupeResources rs) []).2
    fileTypes := [] }

theorem replaceBadChars_noBad (l : List Char) :
    ∀ c ∈ replaceBadChars l, isBadFileChar c = false := by
  intro c hc
  simp only [replaceBadChars, List.mem_map] at hc
  obtain ⟨a, _, ha⟩ := hc
  by_cases h : isBadFileChar a = true
  · rw [if_pos h] at ha; subst ha; decide
  · rw [if_neg h] at ha; subst ha
    exact Bool.not_eq_true _ ▸ h

theorem replaceBadChars_fixed (l : List Char)
    (h : ∀ c ∈ l, isBadFileChar c = false) : replaceBadChars l = l := by
  unfold replaceBadChars
  conv_rhs => rw [← List.map_id l]
  apply List.map_congr_left
  intro a ha
  simp [h a ha]

/-- Head of `collapseWhitespace`: the first input character survives, with
whitespace turned into a space. -/
theorem collapseWhitespace_head (l : List Char) :
    ∀ c, (collapseWhitespace (c :: l)).head? =
      some (if isJsWhitespace c then ' ' else c) := by
  induction l with
  | nil => intro c; simp [collapseWhitespace]
  | cons d t ih =>
    intro c
    by_cases h : isJsWhitespace c = true ∧ isJsWhitespace d = true
    · rw [show collapseWhitespace (c :: d :: t) = collapseWhitespace (d :: t) by
        simp [collapseWhitespace, h.1, h.2]]
      rw [ih d]
      simp [h.1, h.2]
    · have hb : (isJsWhitespace c && isJsWhitespace d) = false := by
        rcases Bool.eq_false_or_eq_true (isJsWhitespace c) with hc | hc <;>
          rcases Bool.eq_false_or_eq_true (isJsWhitespace d) with hd | hd <;>
            simp_all
      simp [collapseWhitespace, hb]

/-- Every character of the collapsed list is a space or a non-whitespace
character of the input. -/
theorem collapseWhitespace_mem (l : List Char) :
    ∀ x ∈ collapseWhitespace l, x = ' ' ∨ (x ∈ l ∧ isJsWhitespace x = false) := by
  induction l with
  | nil => simp [collapseWhitespace]
  | cons c t ih =>
    cases t with
    | nil =>
      intro x hx
      simp only [collapseWhitespace, List.mem_singleton] at hx
      subst hx
      by_cases h : isJsWhitespace c = true
      · left; simp [h]
      · have hc : isJsWhitespace c = false := by simpa using h
        simp [hc]
    | cons d t' =>
      intro x hx
      by_cases h : isJsWhitespace c = true ∧ isJsWhitespace d = true
      · rw [show collapseWhitespace (c :: d :: t') = collapseWhitespace (d :: t') by
          simp [collapseWhitespace, h.1, h.2]] at hx
        rcases ih x hx with h1 | ⟨h2, h3⟩
        · exact Or.inl h1
        · exact Or.inr ⟨List.mem_cons_of_mem _ h2, h3⟩
      · have hb : (isJsWhitespace c && isJsWhitespace d) = false := by
          rcases Bool.eq_false_or_eq_true (isJsWhitespace c) with hc | hc <;>
            rcases Bool.eq_false_or_eq_true (isJsWhitespace d) with hd | hd <;>
              simp_all
        simp only [collapseWhitespace, hb, Bool.false_eq_true, if_false,
          List.mem_cons] at hx
        rcases hx with hx | hx
        · subst hx
          by_cases hc : isJsWhitespace c = true
          · left; simp [hc]
          · have hc' : isJsWhitespace c = false := by simpa using hc
            simp [hc']
        · rcases ih x hx with h1 | ⟨h2, h3⟩
          · exact Or.inl h1
          · exact Or.inr ⟨List.mem_cons_of_mem _ h2, h3⟩

theorem collapseWhitespace_chain (l : List Char) :
    (collapseWhitespace l).Chain' NotBothWs := by
  induction l with
  | nil => simp [collapseWhitespace]
  | cons c t ih =>
    cases t with
    | nil => simp [collapseWhitespace]
    | cons d t' =>
      by_cases h : isJsWhitespace c = true ∧ isJsWhitespace d = true
      · rw [show collapseWhitespace (c :: d :: t') = collapseWhitespace (d :: t') by
          simp [collapseWhitespace, h.1, h.2]]
        exact ih
      · have hb : (isJsWhitespace c && isJsWhitespace d) = false := by
          rcases Bool.eq_false_or_eq_true (isJsWhitespace c) with hc | hc <;>
            rcases Bool.eq_false_or_eq_true (isJsWhitespace d) with hd | hd <;>
              simp_all
        rw [show collapseWhitespace (c :: d :: t') =
            (if isJsWhitespace c then ' ' else c) :: collapseWhitespace (d :: t') by
          simp [collapseWhitespace, hb]]
        rw [List.chain'_cons']
        refine ⟨?_, ih⟩
        intro y hy
        rw [collapseWhitespace_head t' d] at hy
        simp only [Option.mem_def, Option.some.injEq] at hy
        subst hy
        by_cases hc : isJsWhitespace c = true
        · have hd : isJsWhitespace d = false := by
            rcases Bool.eq_false_or_eq_true (isJsWhitespace d) with hd | hd
            · exact absurd ⟨hc, hd⟩ h
            · exact hd
          simp only [hc, if_true, hd, Bool.false_eq_true, if_false]
          intro hcon
          rw [hd] at hcon
          exact Bool.false_ne_true hcon.2
        · simp only [Bool.not_eq_true] at hc
          simp only [hc, Bool.false_eq_true, if_false]
          intro hcon
          rw [hc] at hcon
          exact Bool.false_ne_true hcon.1

/-- On an already-collapsed list (whitespace only as isolated spaces),
`collapseWhitespace` is the identity. -/
theorem collapseWhitespace_fixed (l : List Char)
    (hs : ∀ x ∈ l, isJsWhitespace x = true → x = ' ')
    (hc : l.Chain' NotBothWs) : collapseWhitespace l = l := by
  induction l with
  | nil => simp [collapseWhitespace]
  | cons c t ih =>
    cases t with
    | nil =>
      simp only [collapseWhitespace, List.cons.injEq, and_true]
      by_cases h : isJsWhitespace c = true
      · rw [if_pos h]
        exact (hs c (List.mem_singleton_self c) h).symm
      · rw [if_neg h]
    | cons d t' =>
      have hnb : NotBothWs c d := (List.chain'_cons.mp hc).1
      have hb : (isJsWhitespace c && isJsWhitespace d) = false := by
        rcases Bool.eq_false_or_eq_true (isJsWhitespace c) with h1 | h1 <;>
          rcases Bool.eq_false_or_eq_true (isJsWhitespace d) with h2 | h2 <;>
            simp_all [NotBothWs]
      rw [show collapseWhitespace (c :: d :: t') =
          (if isJsWhitespace c then ' ' else c) :: collapseWhitespace (d :: t') by
        simp [collapseWhitespace, hb]]
      have ht : collapseWhitespace (d :: t') = d :: t' :=
        ih (fun x hx h => hs x (List.mem_cons_of_mem _ hx) h) (List.chain'_cons.mp hc).2
      rw [ht]
      by_cases h : isJsWhitespace c = true
      · rw [if_pos h, hs c (List.mem_cons_self _ _) h]
      · rw [if_neg h]

/-! #### `trimWhitespace` lemmas -/
theorem trimWhitespace_eq (l : List Char) :
    trimWhitespace l =
      List.rdropWhile isJsWhitespace (List.dropWhile isJsWhitespace l) := rfl

theorem trimWhitespace_subset (l : List Char) :
    ∀ x ∈ trimWhitespace l, x ∈ l := by
  intro x hx
  rw [trimWhitespace_eq] at hx
  exact (List.dropWhile_suffix isJsWhitespace).subset
    (( List.rdropWhile_prefix _ _).subset hx)

theorem trimWhitespace_chain (l : List Char) (h : l.Chain' NotBothWs) :
    (trimWhitespace l).Chain' NotBothWs := by
  rw [trimWhitespace_eq]
  exact List.Chain'.prefix (h.suffix (List.dropWhile_suffix _)) ( List.rdropWhile_prefix _ _)

theorem trimWhitespace_length_le (l : List Char) :
    (trimWhitespace l).length ≤ l.length := by
  rw [trimWhitespace_eq]
  exact le_trans ( List.rdropWhile_prefix _ _).length_le
    (List.dropWhile_suffix _).length_le

theorem dropWhile_head?_not (p : Char → Bool) (l : List Char) :
    ∀ c, (l.dropWhile p).head? = some c → p c = false := by
  induction l with
  | nil => intro c hc; simp at hc
  | cons a t ih =>
    intro c hc
    rw [List.dropWhile_cons] at hc
    by_cases h : p a = true
    · rw [if_pos h] at hc; exact ih c hc
    · rw [if_neg h] at hc
      simp only [List.head?_cons, Option.some.injEq] at hc
      subst hc
      simpa using h

theorem trimWhitespace_head?_not (l : List Char) (c : Char)
    (hc : (trimWhitespace l).head? = some c) : isJsWhitespace c = false := by
  rw [trimWhitespace_eq] at hc
  obtain ⟨t, ht⟩ := List.rdropWhile_prefix isJsWhitespace (List.dropWhile isJsWhitespace l)
  apply dropWhile_head?_not isJsWhitespace l c
  rw [← ht]
  cases hrw : List.rdropWhile isJsWhitespace (List.dropWhile isJsWhitespace l) with
  | nil => rw [hrw] at hc; simp at hc
  | cons a t' =>
    rw [hrw] at hc
    simp only [List.head?_cons, Option.some.injEq] at hc
    subst hc
    simp

theorem trimWhitespace_getLast?_not (l : List Char) (c : Char)
    (hc : (trimWhitespace l).getLast? = some c) : isJsWhitespace c = false := by
  obtain ⟨h, hx⟩ := List.mem_getLast?_eq_getLast hc
  subst hx
  simpa using List.rdropWhile_last_not isJsWhitespace (List.dropWhile isJsWhitespace l) h

/-- `trimWhitespace` is the identity on lists with non-whitespace endpoints. -/
theorem trimWhitespace_fixed (l : List Char)
    (h1 : ∀ c, l.head? = some c → isJsWhitespace c = false)
    (h2 : ∀ c, l.getLast? = some c → isJsWhitespace c = false) :
    trimWhitespace l = l := by
  rw [trimWhitespace_eq]
  have hdw : List.dropWhile isJsWhitespace l = l := by
    rw [List.dropWhile_eq_self_iff]
    intro hl hget
    cases l with
    | nil => simp at hl
    | cons a t =>
      have := h1 a rfl
      rw [show (a :: t).get ⟨0, hl⟩ = a from rfl, this] at hget
      exact Bool.false_ne_true hget
  rw [hdw, List.rdropWhile_eq_self_iff]
  intro hl hget
  have := h2 (l.getLast hl) (List.getLast?_eq_getLast l hl)
  rw [this] at hget
  exact Bool.false_ne_true hget

theorem sanitized_file : Sanitized ("file".data) := by
  refine ⟨by decide, by decide, ?_, ?_, ?_, by decide⟩
  · show List.Chain' NotBothWs ['f', 'i', 'l', 'e']
    simp only [List.chain'_cons, List.chain'_singleton, and_true]
    unfold NotBothWs
    exact ⟨by decide, by decide, by decide⟩
  · intro c hc
    simp only [show ("file".data).head? = some 'f' from rfl, Option.some.injEq] at hc
    subst hc; decide
  · intro c hc
    simp only [show ("file".data).getLast? = some 'e' from rfl, Option.some.injEq] at hc
    subst hc; decide

/-- The first five sanitization invariants (everything except the length bound)
hold of `sanitizeCleaned`. -/
theorem sanitizeCleaned_invariants (l : List Char) :
    (∀ c ∈ sanitizeCleaned l, isBadFileChar c = false) ∧
    (∀ c ∈ sanitizeCleaned l, isJsWhitespace c = true → c = ' ') ∧
    (sanitizeCleaned l).Chain' NotBothWs ∧
    (∀ c, (sanitizeCleaned l).head? = some c → isJsWhitespace c = false) ∧
    (∀ c, (sanitizeCleaned l).getLast? = some c → isJsWhitespace c = false) := by
  have hrnb : ∀ c ∈ replaceBadChars l, isBadFileChar c = false := replaceBadChars_noBad l
  have hcwnb : ∀ c ∈ collapseWhitespace (replaceBadChars l), isBadFileChar c = false := by
    intro c hc
    rcases collapseWhitespace_mem _ c hc with h | ⟨h, _⟩
    · subst h; decide
    · exact hrnb c h
  have hcwws : ∀ c ∈ collapseWhitespace (replaceBadChars l),
      isJsWhitespace c = true → c = ' ' := by
    intro c hc hws
    rcases collapseWhitespace_mem _ c hc with h | ⟨_, h⟩
    · exact h
    · rw [h] at hws; exact absurd hws (by simp)
  exact ⟨fun c hc => hcwnb c (trimWhitespace_subset _ c hc),
    fun c hc => hcwws c (trimWhitespace_subset _ c hc),
    trimWhitespace_chain _ (collapseWhitespace_chain _),
    trimWhitespace_head?_not _,
    trimWhitespace_getLast?_not _⟩

/-- The output of `sanitizeFileNameL` is sanitized and nonempty. -/
theorem sanitizeFileNameL_sanitized (l : List Char) :
    Sanitized (sanitizeFileNameL l) ∧ sanitizeFileNameL l ≠ [] := by
  have hclean := sanitizeCleaned_invariants l
  have hlim : (∀ c ∈ sanitizeLimited l, isBadFileChar c = false) ∧
      (∀ c ∈ sanitizeLimited l, isJsWhitespace c = true → c = ' ') ∧
      (sanitizeLimited l).Chain' NotBothWs ∧
      (∀ c, (sanitizeLimited l).head? = some c → isJsWhitespace c = false) ∧
      (∀ c, (sanitizeLimited l).getLast? = some c → isJsWhitespace c = false) ∧
      (sanitizeLimited l).length ≤ 180 := by
    unfold sanitizeLimited
    by_cases hlen : 180 < (sanitizeCleaned l).length
    · rw [if_pos hlen]
      refine ⟨fun c hc => hclean.1 c (List.take_subset _ _ (trimWhitespace_subset _ c hc)),
        fun c hc => hclean.2.1 c (List.take_subset _ _ (trimWhitespace_subset _ c hc)),
        trimWhitespace_chain _ (hclean.2.2.1.take 180),
        trimWhitespace_head?_not _,
        trimWhitespace_getLast?_not _, ?_⟩
      refine le_trans (trimWhitespace_length_le _) ?_
      exact List.length_take_le 180 (sanitizeCleaned l)
    · rw [if_neg hlen]
      exact ⟨hclean.1, hclean.2.1, hclean.2.2.1, hclean.2.2.2.1, hclean.2.2.2.2, by omega⟩
  unfold sanitizeFileNameL
  by_cases hemp : (sanitizeLimited l).isEmpty = true
  · rw [if_pos hemp]
    exact ⟨sanitized_file, by decide⟩
  · rw [if_neg hemp]
    refine ⟨⟨hlim.1, hlim.2.1, hlim.2.2.1, hlim.2.2.2.1, hlim.2.2.2.2.1, hlim.2.2.2.2.2⟩, ?_⟩
    intro hnil
    exact hemp (by rw [hnil]; rfl)

/-- `sanitizeFileNameL` fixes sanitized nonempty lists. -/
theorem sanitizeFileNameL_fixed (m : List Char) (hs : Sanitized m) (hne : m ≠ []) :
    sanitizeFileNameL m = m := by
  obtain ⟨h1, h2, h3, h4, h5, h6⟩ := hs
  have hcl : sanitizeCleaned m = m := by
    unfold sanitizeCleaned
    rw [replaceBadChars_fixed m h1, collapseWhitespace_fixed m h2 h3,
      trimWhitespace_fixed m h4 h5]
  have hlm : sanitizeLimited m = m := by
    unfold sanitizeLimited
    rw [hcl, if_neg (by omega)]
  unfold sanitizeFileNameL
  rw [hlm, if_neg (by simpa [List.isEmpty_iff] using hne)]

/-- C7: for every string `s`, `sanitizeName(sanitizeName(s)) == sanitizeName(s)`
(sanitization is deterministic and idempotent), and `sanitizeName("")` as well as
`sanitizeName("   ")` both yield the fallback name `"file"`. -/
theorem c7_sanitize_idempotent_and_fallback :
    (∀ s : String, sanitizeFileName (sanitizeFileName s) = sanitizeFileName s) ∧
    sanitizeFileName "" = "file" ∧ sanitizeFileName "   " = "file" := by
  refine ⟨?_, by decide, by decide⟩
  intro s
  show (⟨sanitizeFileNameL (sanitizeFileNameL s.data)⟩ : String) = ⟨sanitizeFileNameL s.data⟩
  have h := sanitizeFileNameL_sanitized s.data
  rw [sanitizeFileNameL_fixed _ h.1 h.2]

/-- Appending `# frag` to a string never changes the part before the first `#`. -/
theorem splitAtHash_append_hash (l f : List Char) :
    (splitAtHash (l ++ '#' :: f)).1 = (splitAtHash l).1 := by
  induction l with
  | nil => simp [splitAtHash]
  | cons c t ih =>
    by_cases h : c = '#'
    · subst h; simp [splitAtHash]
    · simp only [List.cons_append, splitAtHash, if_neg h]
      exact congrArg (List.cons c) ih

theorem char_toNat_ofNat (n : Nat) (h : n < 55296) : (Char.ofNat n).toNat = n := by
  have hv : n.isValidChar := Or.inl h
  rw [Char.ofNat, dif_pos hv]
  rfl

theorem char_toNat_inj {c d : Char} (h : c.toNat = d.toNat) : c = d :=
  Char.eq_of_val_eq (UInt32.toNat.inj h)

theorem char_toNat_lt (c : Char) : c.toNat < 1114112 := by
  have := c.valid
  rcases this with h | ⟨_, h⟩
  · exact Nat.lt_trans h (by norm_num)
  · exact h

theorem toLowerAscii_toNat (c : Char) :
    (toLowerAscii c).toNat =
      if 65 ≤ c.toNat ∧ c.toNat ≤ 90 then c.toNat + 32 else c.toNat := by
  unfold toLowerAscii
  by_cases h : 65 ≤ c.toNat ∧ c.toNat ≤ 90
  · rw [if_pos (by simp [h.1, h.2]), if_pos h]
    exact char_toNat_ofNat _ (by omega)
  · rw [if_neg (by
      intro hcon
      rw [Bool.and_eq_true] at hcon
      exact h ⟨by simpa using hcon.1, by simpa using hcon.2⟩), if_neg h]

theorem toLowerAscii_idem (c : Char) : toLowerAscii (toLowerAscii c) = toLowerAscii c := by
  apply char_toNat_inj
  rw [toLowerAscii_toNat, toLowerAscii_toNat]
  split_ifs <;> omega

theorem toLowerAscii_eq_self_of_toNat_lt (c d : Char) (hd : d.toNat < 97)
    (h : toLowerAscii c = d) : c = d := by
  have := congrArg Char.toNat h
  rw [toLowerAscii_toNat] at this
  by_cases hc : 65 ≤ c.toNat ∧ c.toNat ≤ 90
  · rw [if_pos hc] at this; omega
  · rw [if_neg hc] at this; exact char_toNat_inj this

theorem isSchemeChar_toLowerAscii (c : Char) (h : isSchemeChar c = true) :
    isSchemeChar (toLowerAscii c) = true := by
  unfold isSchemeChar isAsciiAlpha isAsciiDigit at h ⊢
  by_cases hu : 65 ≤ c.toNat ∧ c.toNat ≤ 90
  · have hn : (toLowerAscii c).toNat = c.toNat + 32 := by
      rw [toLowerAscii_toNat, if_pos hu]
    simp only [Bool.or_eq_true, Bool.and_eq_true, decide_eq_true_eq]
    left; left
    omega
  · have hn : toLowerAscii c = c := by
      apply char_toNat_inj
      rw [toLowerAscii_toNat, if_neg hu]
    rw [hn]
    exact h

theorem isAsciiAlpha_toLowerAscii (c : Char) (h : isAsciiAlpha c = true) :
    isAsciiAlpha (toLowerAscii c) = true := by
  unfold isAsciiAlpha at h ⊢
  rw [toLowerAscii_toNat]
  simp only [Bool.or_eq_true, Bool.and_eq_true, decide_eq_true_eq] at h ⊢
  by_cases hu : 65 ≤ c.toNat ∧ c.toNat ≤ 90
  · rw [if_pos hu]; left; omega
  · rw [if_neg hu]; exact h

theorem map_toLowerAscii_idem (l : List Char) :
    (l.map toLowerAscii).map toLowerAscii = l.map toLowerAscii := by
  rw [List.map_map]
  apply List.map_congr_left
  intro a _
  exact toLowerAscii_idem a

/-- C8: for every URL and every fragment string, `normalizeIdentity` applied to
the URL with that fragment appended equals `normalizeIdentity` applied to the
URL alone: the fragment is stripped, and the normalized identity is stable
across equivalent URLs differing only in fragment.  (`url` ranges over the
strings the platform URL parser accepts.) -/
theorem c8_normalize_fragment_stable (url frag : String)
    (h : (parsePreFragment (splitAtHash url.data).1).isSome = true) :
    normalizeUrl (url ++ "#" ++ frag) = normalizeUrl url := by
  have happ : ∀ a b : String, (a ++ b).data = a.data ++ b.data := by
    intro a b
    cases a; cases b; rfl
  have hdata : (url ++ "#" ++ frag).data = url.data ++ '#' :: frag.data := by
    rw [happ, happ, show ("#" : String).data = ['#'] from rfl]
    simp
  unfold normalizeUrl
  rw [hdata, splitAtHash_append_hash]
  cases hp : parsePreFragment (splitAtHash url.data).1 with
  | none => rw [hp] at h; simp at h
  | some u => rfl

theorem c8_normalize_fragment_stable_witness :
    normalizeUrl ("http://example.com/a" ++ "#" ++ "sec2") =
      normalizeUrl "http://example.com/a" :=
  c8_normalize_fragment_stable "http://example.com/a" "sec2" (by decide)

/-! ### `ensureUniquePath` (src/shared/utils.ts)

```ts
export function ensureUniquePath(existing: Set<string>, fullPath: string): string {
  if (!existing.has(fullPath)) { existing.add(fullPath); return fullPath; }
  const dot = fullPath.lastIndexOf('.');
  const base = dot > -1 ? fullPath.slice(0, dot) : fullPath;
  const ext = dot > -1 ? fullPath.slice(dot) : '';
  let i = 1;
  while (existing.has(`${base} (${i})${ext}`)) i += 1;
  const unique = `${base} (${i})${ext}`;
  existing.add(unique);
  return unique;
}
```

The `Set<string>` is modelled as a `List String` used through membership and
append; the mutation of `existing` is returned as the second component.  The
decimal rendering `${i}` is `Nat.repr`.  To justify that the `while` loop
terminates at the least free counter, we first prove that `Nat.repr` is
injective (via `Nat.digits`) and use a pigeonhole argument.
-/
theorem string_data_append (a b : String) : (a ++ b).data = a.data ++ b.data := by
  cases a; cases b; rfl

theorem toDigitsCore_eq_digits (f : Nat) :
    ∀ (n : Nat) (acc : List Char), 0 < n → n ≤ f →
      Nat.toDigitsCore 10 f n acc =
        ((Nat.digits 10 n).map Nat.digitChar).reverse ++ acc := by
  induction f with
  | zero => intro n acc h1 h2; omega
  | succ f ih =>
    intro n acc h1 h2
    rw [Nat.toDigitsCore]
    by_cases hdiv : n / 10 = 0
    · rw [if_pos hdiv]
      rw [Nat.digits_def' (by norm_num : (1:ℕ) < 10) h1, hdiv, Nat.digits_zero]
      simp
    · rw [if_neg hdiv]
      have hpos : 0 < n / 10 := Nat.pos_of_ne_zero hdiv
      have hlt : n / 10 < n := Nat.div_lt_self h1 (by norm_num)
      rw [ih (n / 10) (Nat.digitChar (n % 10) :: acc) hpos (by omega)]
      rw [Nat.digits_def' (by norm_num : (1:ℕ) < 10) h1]
      simp

theorem toDigits_eq_digits (n : Nat) (h : 0 < n) :
    Nat.toDigits 10 n = ((Nat.digits 10 n).map Nat.digitChar).reverse := by
  rw [Nat.toDigits, toDigitsCore_eq_digits (n + 1) n [] h (by omega), List.append_nil]

theorem digitChar_inj_lt :
    ∀ a, a < 10 → ∀ b, b < 10 → Nat.digitChar a = Nat.digitChar b → a = b := by decide

theorem map_digitChar_inj : ∀ (l1 l2 : List Nat), (∀ x ∈ l1, x < 10) →
    (∀ x ∈ l2, x < 10) → l1.map Nat.digitChar = l2.map Nat.digitChar → l1 = l2 := by
  intro l1
  induction l1 with
  | nil =>
    intro l2 _ _ h
    cases l2 with
    | nil => rfl
    | cons b t => simp at h
  | cons a t ih =>
    intro l2 hb1 hb2 h
    cases l2 with
    | nil => simp at h
    | cons b t2 =>
      simp only [List.map_cons, List.cons.injEq] at h
      have hab : a = b :=
        digitChar_inj_lt a (hb1 a (List.mem_cons_self _ _)) b
          (hb2 b (List.mem_cons_self _ _)) h.1
      rw [hab, ih t2 (fun x hx => hb1 x (List.mem_cons_of_mem _ hx))
        (fun x hx => hb2 x (List.mem_cons_of_mem _ hx)) h.2]

theorem nat_repr_injective (m n : Nat) (h : Nat.repr m = Nat.repr n) : m = n := by
  have hd : Nat.toDigits 10 m = Nat.toDigits 10 n := congrArg String.data h
  have hzero : ∀ k : Nat, 0 < k → Nat.toDigits 10 k ≠ ['0'] := by
    intro k hk hcon
    rw [toDigits_eq_digits k hk] at hcon
    have hmap : (Nat.digits 10 k).map Nat.digitChar = ['0'] := by
      have := congrArg List.reverse hcon
      simpa using this
    have hne : k ≠ 0 := by omega
    cases hdig : Nat.digits 10 k with
    | nil => rw [hdig] at hmap; simp at hmap
    | cons d t =>
      rw [hdig] at hmap
      simp only [List.map_cons, List.cons.injEq] at hmap
      have ht : t = [] := by
        have := hmap.2
        cases t with
        | nil => rfl
        | cons x y => simp at this
      subst ht
      have hd10 : d < 10 :=
        Nat.digits_lt_base (by norm_num) (by rw [hdig]; exact List.mem_cons_self _ _)
      have hd0 : d = 0 := digitChar_inj_lt d hd10 0 (by norm_num) (by simpa using hmap.1)
      rw [hd0] at hdig
      have hk0 : k = 0 := by
        have := congrArg (Nat.ofDigits 10) hdig
        rw [Nat.ofDigits_digits] at this
        simpa [Nat.ofDigits] using this
      exact hne hk0
  rcases Nat.eq_zero_or_pos m with hm | hm <;> rcases Nat.eq_zero_or_pos n with hn | hn
  · omega
  · subst hm
    exact absurd hd.symm (hzero n hn)
  · subst hn
    exact absurd hd (hzero m hm)
  · rw [toDigits_eq_digits m hm, toDigits_eq_digits n hn] at hd
    have hmap : (Nat.digits 10 m).map Nat.digitChar = (Nat.digits 10 n).map Nat.digitChar :=
      List.reverse_injective hd
    have hdig : Nat.digits 10 m = Nat.digits 10 n :=
      map_digitChar_inj _ _ (fun x hx => Nat.digits_lt_base (by norm_num) hx)
        (fun x hx => Nat.digits_lt_base (by norm_num) hx) hmap
    have := congrArg (Nat.ofDigits 10) hdig
    rwa [Nat.ofDigits_digits, Nat.ofDigits_digits] at this

theorem repr_no_rparen (n : Nat) : ∀ c ∈ (Nat.repr n).data, c ≠ ')' := by
  have hdc : ∀ d, d < 10 → Nat.digitChar d ≠ ')' := by decide
  intro c hc
  rcases Nat.eq_zero_or_pos n with hn | hn
  · subst hn
    simp only [show (Nat.repr 0).data = ['0'] from rfl, List.mem_singleton] at hc
    subst hc; decide
  · have : (Nat.repr n).data = ((Nat.digits 10 n).map Nat.digitChar).reverse :=
      toDigits_eq_digits n hn
    rw [this, List.mem_reverse, List.mem_map] at hc
    obtain ⟨d, hd, hdc'⟩ := hc
    rw [← hdc']
    exact hdc d (Nat.digits_lt_base (by norm_num) hd)

theorem append_sep_inj (sep : Char) : ∀ (l1 l2 t1 t2 : List Char),
    (∀ c ∈ l1, c ≠ sep) → (∀ c ∈ l2, c ≠ sep) →
    l1 ++ sep :: t1 = l2 ++ sep :: t2 → l1 = l2 ∧ t1 = t2 := by
  intro l1
  induction l1 with
  | nil =>
    intro l2 t1 t2 _ h2 h
    cases l2 with
    | nil => simpa using h
    | cons b m =>
      simp only [List.nil_append, List.cons_append, List.cons.injEq] at h
      exact absurd h.1.symm (h2 b (List.mem_cons_self _ _))
  | cons a l ih =>
    intro l2 t1 t2 h1 h2 h
    cases l2 with
    | nil =>
      simp only [List.nil_append, List.cons_append, List.cons.injEq] at h
      exact absurd h.1 (h1 a (List.mem_cons_self _ _))
    | cons b m =>
      simp only [List.cons_append, List.cons.injEq] at h
      have := ih m t1 t2 (fun c hc => h1 c (List.mem_cons_of_mem _ hc))
        (fun c hc => h2 c (List.mem_cons_of_mem _ hc)) h.2
      exact ⟨by rw [h.1, this.1], this.2⟩

theorem counterCandidate_inj (base extn : String) (i j : Nat)
    (h : counterCandidate base extn i = counterCandidate base extn j) : i = j := by
  have hd := congrArg String.data h
  unfold counterCandidate at hd
  simp only [string_data_append, List.append_assoc] at hd
  replace hd := List.append_cancel_left hd
  replace hd := List.append_cancel_left hd
  rw [show (")" : String).data ++ extn.data = ')' :: extn.data from rfl] at hd
  have := append_sep_inj ')' _ _ _ _ (repr_no_rparen i) (repr_no_rparen j) hd
  exact nat_repr_injective i j (by
    cases hri : Nat.repr i with
    | mk li =>
      cases hrj : Nat.repr j with
      | mk lj =>
        have h1 := this.1
        rw [hri, hrj] at h1
        simp only at h1
        rw [h1])

/-- Pigeonhole: among the first `existing.length + 1` counter values some
candidate is unused. -/
theorem exists_free_counter (existing : List String) (base extn : String) :
    ∃ k, k ≤ existing.length ∧ counterCandidate base extn (k + 1) ∉ existing := by
  by_contra hcon
  push_neg at hcon
  have hinj : Function.Injective fun k : Nat => counterCandidate base extn (k + 1) := by
    intro a b hab
    have := counterCandidate_inj base extn (a + 1) (b + 1) hab
    omega
  have hsub : (Finset.range (existing.length + 1)).image
      (fun k => counterCandidate base extn (k + 1)) ⊆ existing.toFinset := by
    intro x hx
    simp only [Finset.mem_image, Finset.mem_range] at hx
    obtain ⟨k, hk, hkx⟩ := hx
    rw [List.mem_toFinset, ← hkx]
    exact hcon k (by omega)
  have hcard := Finset.card_le_card hsub
  rw [Finset.card_image_of_injective _ hinj, Finset.card_range] at hcard
  have := existing.toFinset_card_le
  omega

theorem findFreeCounter_spec (existing : List String) (base extn : String) :
    ∀ (fuel i : Nat), (∃ k, k < fuel ∧ counterCandidate base extn (i + k) ∉ existing) →
      i ≤ findFreeCounter existing base extn fuel i ∧
      counterCandidate base extn (findFreeCounter existing base extn fuel i) ∉ existing ∧
      (∀ j, i ≤ j → j < findFreeCounter existing base extn fuel i →
        counterCandidate base extn j ∈ existing) := by
  intro fuel
  induction fuel with
  | zero =>
    intro i h
    obtain ⟨k, hk, _⟩ := h
    omega
  | succ fuel ih =>
    intro i h
    obtain ⟨k, hk, hfree⟩ := h
    by_cases hmem : counterCandidate base extn i ∈ existing
    · rw [show findFreeCounter existing base extn (fuel + 1) i =
          findFreeCounter existing base extn fuel (i + 1) by
        rw [findFreeCounter, if_pos hmem]]
      have hex : ∃ k', k' < fuel ∧ counterCandidate base extn ((i + 1) + k') ∉ existing := by
        cases k with
        | zero => rw [Nat.add_zero] at hfree; exact absurd hmem hfree
        | succ k' =>
          exact ⟨k', by omega, by rw [show i + 1 + k' = i + (k' + 1) by omega]; exact hfree⟩
      obtain ⟨h1, h2, h3⟩ := ih (i + 1) hex
      refine ⟨by omega, h2, ?_⟩
      intro j hij hjr
      by_cases hji : j = i
      · subst hji; exact hmem
      · exact h3 j (by omega) hjr
    · rw [show findFreeCounter existing base extn (fuel + 1) i = i by
        rw [findFreeCounter, if_neg hmem]]
      exact ⟨le_refl i, hmem, fun j h1 h2 => by omega⟩

/-- C6: an unused candidate path is returned unchanged and registered; a used
one gets the smallest parenthesized counter `base (i)ext` (with `base`/`ext`
split at the last dot) such that the result is unused, which is then
registered; the returned path is never already present in the registry; and —
the function being a pure function of registry and candidate — the result is
deterministic given insertion order.  In particular three successive calls with
`Week 1/file.pdf` starting from the empty registry return `Week 1/file.pdf`,
`Week 1/file (1).pdf` and `Week 1/file (2).pdf`. -/
theorem c6_ensure_unique_path (existing : List String) (fullPath : String) :
    (fullPath ∉ existing →
      ensureUniquePath existing fullPath = (fullPath, existing ++ [fullPath])) ∧
    (fullPath ∈ existing → ∃ i, 1 ≤ i ∧
      (ensureUniquePath existing fullPath).1 =
        counterCandidate (uniqueBase fullPath) (uniqueExt fullPath) i ∧
      counterCandidate (uniqueBase fullPath) (uniqueExt fullPath) i ∉ existing ∧
      (∀ j, 1 ≤ j → j < i →
        counterCandidate (uniqueBase fullPath) (uniqueExt fullPath) j ∈ existing) ∧
      (ensureUniquePath existing fullPath).2 =
        existing ++ [(ensureUniquePath existing fullPath).1]) ∧
    (ensureUniquePath existing fullPath).1 ∉ existing ∧
    ((ensureUniquePath [] "Week 1/file.pdf").1 = "Week 1/file.pdf" ∧
      (ensureUniquePath (ensureUniquePath [] "Week 1/file.pdf").2 "Week 1/file.pdf").1 =
        "Week 1/file (1).pdf" ∧
      (ensureUniquePath
          (ensureUniquePath (ensureUniquePath [] "Week 1/file.pdf").2 "Week 1/file.pdf").2
          "Week 1/file.pdf").1 = "Week 1/file (2).pdf") := by
  have hspec : fullPath ∈ existing →
      1 ≤ findFreeCounter existing (uniqueBase fullPath) (uniqueExt fullPath)
        (existing.length + 1) 1 ∧
      counterCandidate (uniqueBase fullPath) (uniqueExt fullPath)
        (findFreeCounter existing (uniqueBase fullPath) (uniqueExt fullPath)
          (existing.length + 1) 1) ∉ existing ∧
      (∀ j, 1 ≤ j → j < findFreeCounter existing (uniqueBase fullPath) (uniqueExt fullPath)
          (existing.length + 1) 1 →
        counterCandidate (uniqueBase fullPath) (uniqueExt fullPath) j ∈ existing) := by
    intro _
    apply findFreeCounter_spec
    obtain ⟨k, hk, hfree⟩ := exists_free_counter existing (uniqueBase fullPath) (uniqueExt fullPath)
    exact ⟨k, by omega, by rw [show 1 + k = k + 1 by omega]; exact hfree⟩
  refine ⟨?_, ?_, ?_, by decide, by decide, by decide⟩
  · intro hnot
    unfold ensureUniquePath
    rw [if_neg hnot]
  · intro hmem
    obtain ⟨h1, h2, h3⟩ := hspec hmem
    refine ⟨_, h1, ?_, h2, h3, ?_⟩
    · unfold ensureUniquePath
      rw [if_pos hmem]
    · unfold ensureUniquePath
      rw [if_pos hmem]
  · by_cases hmem : fullPath ∈ existing
    · obtain ⟨h1, h2, _⟩ := hspec hmem
      unfold ensureUniquePath
      rw [if_pos hmem]
      exact h2
    · unfold ensureUniquePath
      rw [if_neg hmem]
      exact hmem

theorem c6_ensure_unique_path_witness :
    ensureUniquePath [] "a.txt" = ("a.txt", [] ++ ["a.txt"]) :=
  (c6_ensure_unique_path [] "a.txt").1 (by decide)

theorem take_add_append {α : Type} : ∀ (m n : Nat) (l : List α),
    l.take (m + n) = l.take m ++ (l.drop m).take n := by
  intro m
  induction m with
  | zero => intro n l; simp
  | succ m ih =>
    intro n l
    cases l with
    | nil => simp
    | cons a t =>
      rw [show m + 1 + n = (m + n) + 1 by omega]
      simp only [List.take_succ_cons, List.drop_succ_cons, List.cons_append]
      rw [ih]

theorem flatten_range_chunks {α : Type} (C : Nat) :
    ∀ (n : Nat) (l : List α),
      ((List.range n).map fun i => (l.drop (i * C)).take C).flatten = l.take (n * C) := by
  intro n
  induction n with
  | zero => intro l; simp
  | succ n ih =>
    intro l
    rw [List.range_succ, List.map_append]
    simp only [List.map_cons, List.map_nil]
    rw [List.flatten_concat, ih]
    rw [show (n + 1) * C = n * C + C by ring]
    rw [take_add_append]

/-- C2: the port-stream transfer of an archive of `totalBytes` bytes sends
exactly `ceil(totalBytes / ZIP_CHUNK_SIZE)` chunk messages, with contiguous
indices `0..totalChunks-1`, each chunk of exactly `ZIP_CHUNK_SIZE` bytes except
possibly the last (and never more); chunk `i` is the slice at offset
`i * ZIP_CHUNK_SIZE`, and concatenating the chunks by index reproduces the
original archive bytes exactly. -/
theorem c2_zip_stream_roundtrip (bytes : List Nat) :
    (zipStreamChunks bytes).length = totalChunksOf bytes.length ∧
    (zipStreamChunks bytes).map Prod.fst = List.range (totalChunksOf bytes.length) ∧
    (∀ i, i + 1 < totalChunksOf bytes.length →
      ((bytes.drop (i * ZIP_CHUNK_SIZE)).take ZIP_CHUNK_SIZE).length = ZIP_CHUNK_SIZE) ∧
    (∀ i, ((bytes.drop (i * ZIP_CHUNK_SIZE)).take ZIP_CHUNK_SIZE).length ≤ ZIP_CHUNK_SIZE) ∧
    ((zipStreamChunks bytes).map Prod.snd).flatten = bytes := by
  refine ⟨by simp [zipStreamChunks], ?_, ?_, ?_, ?_⟩
  · unfold zipStreamChunks
    rw [List.map_map]
    exact List.map_id _
  · intro i hi
    rw [List.length_take, List.length_drop]
    unfold totalChunksOf ZIP_CHUNK_SIZE at hi
    unfold ZIP_CHUNK_SIZE
    omega
  · intro i
    rw [List.length_take, List.length_drop]
    unfold ZIP_CHUNK_SIZE
    omega
  · have hmap : (zipStreamChunks bytes).map Prod.snd =
        (List.range (totalChunksOf bytes.length)).map fun i =>
          (bytes.drop (i * ZIP_CHUNK_SIZE)).take ZIP_CHUNK_SIZE := by
      simp [zipStreamChunks, List.map_map, Function.comp]
    rw [hmap, flatten_range_chunks]
    apply List.take_of_length_le
    unfold totalChunksOf ZIP_CHUNK_SIZE
    omega

theorem concRun_spec {α β : Type} (items : List α) (worker : α → Nat → β) :
    ∀ k, k ≤ items.length →
      (concRun items worker k).idx = k ∧
      (concRun items worker k).log = List.range k ∧
      (concRun items worker k).results.length = items.length ∧
      (∀ i, i < items.length →
        (concRun items worker k).results[i]? =
          some (if i < k then (items[i]?.map fun a => worker a i) else none)) := by
  intro k
  induction k with
  | zero =>
    intro _
    refine ⟨rfl, rfl, by simp [concRun], ?_⟩
    intro i hi
    simp [concRun, List.getElem?_replicate, hi]
  | succ k ih =>
    intro hk
    obtain ⟨h1, h2, h3, h4⟩ := ih (by omega)
    have hklt : k < items.length := by omega
    have ha : items[k]? = some items[k] := List.getElem?_eq_getElem hklt
    have hstep : concRun items worker (k + 1) =
        { idx := k + 1
          log := List.range k ++ [k]
          results := (concRun items worker k).results.set k (some (worker items[k] k)) } := by
      show concStep items worker (concRun items worker k) = _
      unfold concStep
      rw [h1, h2, ha]
    refine ⟨by rw [hstep], ?_, ?_, ?_⟩
    · rw [hstep]
      show List.range k ++ [k] = List.range (k + 1)
      rw [List.range_succ]
    · rw [hstep]
      simp [h3]
    · intro i hi
      rw [hstep]
      show ((concRun items worker k).results.set k (some (worker items[k] k)))[i]? = _
      by_cases hik : i = k
      · subst hik
        rw [List.getElem?_set_self (by rw [h3]; omega)]
        rw [if_pos (by omega), ha]
        rfl
      · rw [List.getElem?_set_ne (by omega)]
        rw [h4 i hi]
        by_cases hik2 : i < k
        · rw [if_pos hik2, if_pos (by omega)]
        · rw [if_neg hik2, if_neg (by omega)]

/-- C10: for every item list and concurrency limit ≥ 1, the pool spawns exactly
`min(limit, items.length)` logical runners; the full run claims every index
exactly once (in index order, whatever the runner interleaving), and the final
results array holds at index `i` the worker's result for item `i` — completion
order cannot change any slot since each runner writes only the slot it
claimed. -/
theorem c10_with_concurrency {α β : Type} (items : List α) (worker : α → Nat → β)
    (limit : Nat) (_hlim : 1 ≤ limit) :
    numRunners limit items.length = min limit items.length ∧
    (concRun items worker items.length).log = List.range items.length ∧
    (∀ i, i < items.length →
      (concRun items worker items.length).results[i]? =
        some (items[i]?.map fun a => worker a i)) := by
  obtain ⟨h1, h2, h3, h4⟩ := concRun_spec items worker items.length (le_refl _)
  refine ⟨rfl, h2, ?_⟩
  intro i hi
  rw [h4 i hi, if_pos hi]

theorem c10_with_concurrency_witness :
    (concRun [5, 7] (fun a i => a * 10 + i) 2).log = List.range 2 :=
  (c10_with_concurrency [5, 7] (fun a i => a * 10 + i) 3 (by omega)).2.1

theorem objKeys_objSet {V : Type} (m : List (String × V)) (k : String) (v : V) :
    objKeys (objSet m k v) = if k ∈ objKeys m then objKeys m else objKeys m ++ [k] := by
  unfold objSet objKeys
  by_cases h : k ∈ m.map Prod.fst
  · rw [if_pos h, if_pos h, List.map_map]
    apply List.map_congr_left
    intro kv _
    by_cases hk : kv.1 = k
    · simp [hk]
    · simp [hk]
  · rw [if_neg h, if_neg h]
    simp

theorem objSet_length {V : Type} (m : List (String × V)) (k : String) (v : V) :
    (objSet m k v).length = if k ∈ objKeys m then m.length else m.length + 1 := by
  unfold objSet objKeys
  by_cases h : k ∈ m.map Prod.fst
  · rw [if_pos h, if_pos h, List.length_map]
  · rw [if_neg h, if_neg h]
    simp

theorem objKeys_subset_objSet {V : Type} (m : List (String × V)) (k : String) (v : V) :
    ∀ c ∈ objKeys m, c ∈ objKeys (objSet m k v) := by
  intro c hc
  rw [objKeys_objSet]
  by_cases h : k ∈ objKeys m
  · rw [if_pos h]; exact hc
  · rw [if_neg h]; exact List.mem_append_left _ hc

theorem mem_objKeys_objSet {V : Type} (m : List (String × V)) (k : String) (v : V) :
    k ∈ objKeys (objSet m k v) := by
  rw [objKeys_objSet]
  by_cases h : k ∈ objKeys m
  · rw [if_pos h]; exact h
  · rw [if_neg h]; exact List.mem_append_right _ (List.mem_singleton_self k)

theorem objKeys_objSet_nodup {V : Type} (m : List (String × V)) (k : String) (v : V)
    (h : (objKeys m).Nodup) : (objKeys (objSet m k v)).Nodup := by
  rw [objKeys_objSet]
  by_cases hk : k ∈ objKeys m
  · rw [if_pos hk]; exact h
  · rw [if_neg hk]
    rw [List.nodup_append]
    exact ⟨h, List.nodup_singleton k, by simpa using hk⟩

theorem objLookup_objSet_self {V : Type} (m : List (String × V)) (k : String) (v : V) :
    objLookup (objSet m k v) k = some v := by
  unfold objSet objLookup
  by_cases h : k ∈ m.map Prod.fst
  · rw [if_pos h]
    induction m with
    | nil => simp at h
    | cons kv t ih =>
      by_cases hk : kv.1 = k
      · simp [hk]
      · rw [List.map_cons, if_neg hk]
        rw [List.find?_cons_of_neg _ (by simpa using hk)]
        apply ih
        simp only [List.map_cons, List.mem_cons] at h
        rcases h with h | h
        · exact absurd h.symm hk
        · exact h
  · rw [if_neg h]
    induction m with
    | nil => simp
    | cons kv t ih =>
      have hk : ¬(kv.1 = k) := by
        intro hcon
        exact h (by simp [← hcon])
      rw [List.cons_append, List.find?_cons_of_neg _ (by simpa using hk)]
      apply ih
      intro hcon
      exact h (by simp only [List.map_cons, List.mem_cons]; exact Or.inr hcon)

theorem objLookup_objSet_ne {V : Type} (m : List (String × V)) (k c : String) (v : V)
    (hne : c ≠ k) : objLookup (objSet m k v) c = objLookup m c := by
  unfold objSet objLookup
  by_cases h : k ∈ m.map Prod.fst
  · rw [if_pos h]
    clear h
    induction m with
    | nil => simp
    | cons kv t ih =>
      by_cases hk : kv.1 = k
      · rw [List.map_cons, if_pos hk]
        rw [List.find?_cons_of_neg _ (by simpa using hne.symm),
          List.find?_cons_of_neg _ (by rw [hk]; simpa using hne.symm)]
        exact ih
      · rw [List.map_cons, if_neg hk]
        by_cases hc : kv.1 = c
        · rw [List.find?_cons_of_pos _ (by simpa using hc),
            List.find?_cons_of_pos _ (by simpa using hc)]
        · rw [List.find?_cons_of_neg _ (by simpa using hc),
            List.find?_cons_of_neg _ (by simpa using hc)]
          exact ih
  · rw [if_neg h]
    induction m with
    | nil =>
      rw [List.nil_append, List.find?_cons_of_neg _ (by simpa using hne.symm),
        List.find?_nil]
    | cons kv t ih =>
      by_cases hc : kv.1 = c
      · rw [List.cons_append, List.find?_cons_of_pos _ (by simpa using hc),
          List.find?_cons_of_pos _ (by simpa using hc)]
      · rw [List.cons_append, List.find?_cons_of_neg _ (by simpa using hc),
          List.find?_cons_of_neg _ (by simpa using hc)]
        exact ih (by
          intro hcon
          exact h (by simp only [List.map_cons, List.mem_cons]; exact Or.inr hcon))

theorem migrate_fold_keys {V : Type} (nk : String → String) :
    ∀ (m acc : List (String × V)),
      ∀ k ∈ objKeys (m.foldl (fun acc kv => objSet acc (nk kv.1) kv.2) acc),
        k ∈ objKeys acc ∨ ∃ k0, k = nk k0 := by
  intro m
  induction m with
  | nil => intro acc k hk; exact Or.inl hk
  | cons kv t ih =>
    intro acc k hk
    rw [List.foldl_cons] at hk
    rcases ih _ k hk with h | h
    · rw [objKeys_objSet] at h
      by_cases hmem : nk kv.1 ∈ objKeys acc
      · rw [if_pos hmem] at h; exact Or.inl h
      · rw [if_neg hmem] at h
        rcases List.mem_append.mp h with h | h
        · exact Or.inl h
        · exact Or.inr ⟨kv.1, by simpa using h⟩
    · exact Or.inr h

theorem migrate_fold_nodup {V : Type} (nk : String → String) :
    ∀ (m acc : List (String × V)), (objKeys acc).Nodup →
      (objKeys (m.foldl (fun acc kv => objSet acc (nk kv.1) kv.2) acc)).Nodup := by
  intro m
  induction m with
  | nil => intro acc h; exact h
  | cons kv t ih =>
    intro acc h
    rw [List.foldl_cons]
    exact ih _ (objKeys_objSet_nodup _ _ _ h)

theorem migrate_fold_len_le {V : Type} (nk : String → String) :
    ∀ (m acc : List (String × V)),
      (m.foldl (fun acc kv => objSet acc (nk kv.1) kv.2) acc).length ≤
        acc.length + m.length := by
  intro m
  induction m with
  | nil => intro acc; simp
  | cons kv t ih =>
    intro acc
    rw [List.foldl_cons]
    refine le_trans (ih _) ?_
    rw [objSet_length]
    by_cases h : nk kv.1 ∈ objKeys acc
    · rw [if_pos h]; simp only [List.length_cons]; omega
    · rw [if_neg h]; simp only [List.length_cons]; omega

theorem migrate_fold_len_strict {V : Type} (nk : String → String) :
    ∀ (m acc : List (String × V)), (∃ kv ∈ m, nk kv.1 ∈ objKeys acc) →
      (m.foldl (fun acc kv => objSet acc (nk kv.1) kv.2) acc).length + 1 ≤
        acc.length + m.length := by
  intro m
  induction m with
  | nil =>
    intro acc h
    obtain ⟨kv, hkv, _⟩ := h
    simp at hkv
  | cons kv t ih =>
    intro acc h
    rw [List.foldl_cons]
    by_cases hk : nk kv.1 ∈ objKeys acc
    · have hset : (objSet acc (nk kv.1) kv.2).length = acc.length := by
        rw [objSet_length, if_pos hk]
      have := migrate_fold_len_le nk t (objSet acc (nk kv.1) kv.2)
      rw [hset] at this
      simp only [List.length_cons]
      omega
    · obtain ⟨kv', hkv', hin⟩ := h
      rcases List.mem_cons.mp hkv' with heq | hmem
      · exact absurd (heq ▸ hin) hk
      · have hin' : nk kv'.1 ∈ objKeys (objSet acc (nk kv.1) kv.2) :=
          objKeys_subset_objSet _ _ _ _ hin
        have := ih (objSet acc (nk kv.1) kv.2) ⟨kv', hmem, hin'⟩
        have hset : (objSet acc (nk kv.1) kv.2).length = acc.length + 1 := by
          rw [objSet_length, if_neg hk]
        rw [hset] at this
        simp only [List.length_cons]
        omega

theorem migrate_fold_lookup {V : Type} (nk : String → String) (c : String) :
    ∀ (m acc : List (String × V)),
      objLookup (m.foldl (fun acc kv => objSet acc (nk kv.1) kv.2) acc) c =
        match (m.filter fun kv => nk kv.1 = c).getLast? with
        | some kv => some kv.2
        | none => objLookup acc c := by
  intro m
  induction m with
  | nil => intro acc; simp
  | cons kv t ih =>
    intro acc
    rw [List.foldl_cons, ih]
    by_cases hc : nk kv.1 = c
    · rw [List.filter_cons_of_pos (by simpa using hc)]
      cases hft : t.filter (fun kv => nk kv.1 = c) with
      | nil =>
        show objLookup (objSet acc (nk kv.1) kv.2) c = some kv.2
        rw [hc, objLookup_objSet_self]
      | cons x xs =>
        rw [List.getLast?_cons_cons, List.getLast?_eq_getLast (x :: xs) (by simp)]
    · rw [List.filter_cons_of_neg (by simpa using hc)]
      cases hft : t.filter (fun kv => nk kv.1 = c) with
      | nil =>
        show objLookup (objSet acc (nk kv.1) kv.2) c = objLookup acc c
        exact objLookup_objSet_ne _ _ _ _ (fun hcon => hc hcon.symm)
      | cons x xs => rfl

theorem migrateTracking_keys_canonical {V : Type} (nk : String → String)
    (m : List (String × V)) (hidem : ∀ s, nk (nk s) = nk s) :
    ∀ k ∈ objKeys (migrateTracking nk m), nk k = k := by
  intro k hk
  rcases migrate_fold_keys nk m [] k hk with h | ⟨k0, hk0⟩
  · simp [objKeys] at h
  · rw [hk0, hidem]

theorem migrateTracking_nodup {V : Type} (nk : String → String) (m : List (String × V)) :
    (objKeys (migrateTracking nk m)).Nodup :=
  migrate_fold_nodup nk m [] (by simp [objKeys])

theorem migrate_fold_fixed {V : Type} (nk : String → String) :
    ∀ (m acc : List (String × V)), (∀ kv ∈ m, nk kv.1 = kv.1) →
      (objKeys m).Nodup → (∀ k ∈ objKeys m, k ∉ objKeys acc) →
      m.foldl (fun acc kv => objSet acc (nk kv.1) kv.2) acc = acc ++ m := by
  intro m
  induction m with
  | nil => intro acc _ _ _; simp
  | cons kv t ih =>
    intro acc hfix hnd hdisj
    rw [List.foldl_cons]
    have hk : nk kv.1 = kv.1 := hfix kv (List.mem_cons_self _ _)
    have hkn : kv.1 ∉ objKeys acc := hdisj kv.1 (by simp [objKeys])
    have hset : objSet acc (nk kv.1) kv.2 = acc ++ [kv] := by
      unfold objSet
      rw [hk, if_neg (show kv.1 ∉ List.map Prod.fst acc from hkn)]
    rw [hset]
    have hnd' : (objKeys t).Nodup := by
      have : objKeys (kv :: t) = kv.1 :: objKeys t := rfl
      rw [this] at hnd
      exact hnd.of_cons
    have hhead : kv.1 ∉ objKeys t := by
      have : objKeys (kv :: t) = kv.1 :: objKeys t := rfl
      rw [this] at hnd
      exact (List.nodup_cons.mp hnd).1
    rw [ih (acc ++ [kv]) (fun x hx => hfix x (List.mem_cons_of_mem _ hx)) hnd' ?_]
    · rw [List.append_assoc]; rfl
    · intro k hkt
      have hk1 : objKeys (acc ++ [kv]) = objKeys acc ++ [kv.1] := by
        unfold objKeys; simp
      rw [hk1]
      intro hcon
      rcases List.mem_append.mp hcon with h | h
      · exact hdisj k (List.mem_cons_of_mem _ hkt) h
      · rw [List.mem_singleton] at h
        exact hhead (h ▸ hkt)

theorem migrateTracking_fixed {V : Type} (nk : String → String) (m : List (String × V))
    (hfix : ∀ kv ∈ m, nk kv.1 = kv.1) (hnd : (objKeys m).Nodup) :
    migrateTracking nk m = m := by
  unfold migrateTracking
  rw [migrate_fold_fixed nk m [] hfix hnd (by simp [objKeys])]
  rfl

theorem getTrackingM_fst {V : Type} (nk : String → String) (store : List (String × V)) :
    (getTrackingM nk store).1 = migrateTracking nk store := rfl

theorem getTrackingM_snd {V : Type} (nk : String → String) (store : List (String × V)) :
    (getTrackingM nk store).2 =
      if trackingChanged nk store then [migrateTracking nk store] else [] := rfl

/-- Migration behaviour of `getTracking`, parametric in any idempotent key
normalization `nk`: all returned keys are canonical; no persist happens when
every stored key is already canonical; a single persist happens when some key
differs; and reloading the migrated result is a fixed point. -/
theorem tracking_migration_param {V : Type} (nk : String → String)
    (store : List (String × V)) (hidem : ∀ s, nk (nk s) = nk s) :
    (∀ k ∈ objKeys (getTrackingM nk store).1, nk k = k) ∧
    ((∀ kv ∈ store, nk kv.1 = kv.1) → (getTrackingM nk store).2 = []) ∧
    ((∃ kv ∈ store, nk kv.1 ≠ kv.1) →
      (getTrackingM nk store).2 = [(getTrackingM nk store).1]) ∧
    getTrackingM nk (getTrackingM nk store).1 = ((getTrackingM nk store).1, []) := by
  have hcanon := migrateTracking_keys_canonical nk store hidem
  refine ⟨?_, ?_, ?_, ?_⟩
  · rw [getTrackingM_fst]
    exact hcanon
  · intro hall
    have hch : trackingChanged nk store = false := by
      unfold trackingChanged
      rw [List.any_eq_false]
      intro kv hkv
      simpa using hall kv hkv
    rw [getTrackingM_snd, hch]
    rfl
  · intro hex
    obtain ⟨kv, hkv, hne⟩ := hex
    have hch : trackingChanged nk store = true := by
      unfold trackingChanged
      rw [List.any_eq_true]
      exact ⟨kv, hkv, by simpa using hne⟩
    rw [getTrackingM_snd, getTrackingM_fst, hch]
    rfl
  · have hfix : ∀ kv ∈ migrateTracking nk store, nk kv.1 = kv.1 := by
      intro kv hkv
      exact hcanon kv.1 (List.mem_map_of_mem Prod.fst hkv)
    have hch2 : trackingChanged nk (migrateTracking nk store) = false := by
      unfold trackingChanged
      rw [List.any_eq_false]
      intro kv hkv
      simpa using hfix kv hkv
    have hmig2 : migrateTracking nk (migrateTracking nk store) = migrateTracking nk store :=
      migrateTracking_fixed nk _ hfix (migrateTracking_nodup nk store)
    rw [getTrackingM_fst]
    have : getTrackingM nk (migrateTracking nk store) =
        (migrateTracking nk (migrateTracking nk store),
          if trackingChanged nk (migrateTracking nk store) then
            [migrateTracking nk (migrateTracking nk store)] else []) := rfl
    rw [this, hmig2, hch2]
    rfl

/-- A key present in a map with `Nodup` keys has exactly one entry. -/
theorem filter_key_nodup {V : Type} :
    ∀ (m : List (String × V)) (c : String), (objKeys m).Nodup → c ∈ objKeys m →
      (m.filter fun kv => kv.1 = c).length = 1 := by
  intro m
  induction m with
  | nil => intro c _ hmem; simp [objKeys] at hmem
  | cons kv t ih =>
    intro c hnd hmem
    have hkeys : objKeys (kv :: t) = kv.1 :: objKeys t := rfl
    rw [hkeys] at hnd hmem
    by_cases hk : kv.1 = c
    · rw [List.filter_cons_of_pos (by simpa using hk)]
      have hnotin : c ∉ objKeys t := hk ▸ (List.nodup_cons.mp hnd).1
      have hft : t.filter (fun kv => kv.1 = c) = [] := by
        rw [List.filter_eq_nil_iff]
        intro x hx hcon
        exact hnotin (by
          rw [show c = x.1 from (show x.1 = c by simpa using hcon).symm]
          exact List.mem_map_of_mem Prod.fst hx)
      rw [hft]
      rfl
    · rw [List.filter_cons_of_neg (by simpa using hk)]
      rcases List.mem_cons.mp hmem with h | h
      · exact absurd h.symm hk
      · exact ih c (List.nodup_cons.mp hnd).2 h

theorem objLookup_some_mem {V : Type} (m : List (String × V)) (c : String) (v : V)
    (h : objLookup m c = some v) : c ∈ objKeys m := by
  unfold objLookup at h
  cases hf : m.find? (fun kv => kv.1 = c) with
  | none => rw [hf] at h; simp at h
  | some kv =>
    have hmem := List.mem_of_find?_eq_some hf
    have hp : kv.1 = c := by simpa using List.find?_some hf
    exact hp ▸ List.mem_map_of_mem Prod.fst hmem

/-- C9: if two distinct stored keys normalize to the same canonical key, the
migrated map has a single entry for that key holding the value of the
later-enumerated stored key (earlier values are silently dropped), so migration
can strictly decrease the number of tracked entries; being a total function it
raises no error in this case.  `(k2, v2)` is the last entry whose key
normalizes to the collision target. -/
theorem c9_migration_collision {V : Type} (nk : String → String)
    (l1 l2 l3 : List (String × V)) (k1 k2 : String) (v1 v2 : V)
    (_hne : k1 ≠ k2) (hcol : nk k1 = nk k2)
    (hlast : ∀ kv ∈ l3, nk kv.1 ≠ nk k2) :
    objLookup (migrateTracking nk (l1 ++ (k1, v1) :: (l2 ++ (k2, v2) :: l3))) (nk k2) =
      some v2 ∧
    ((migrateTracking nk (l1 ++ (k1, v1) :: (l2 ++ (k2, v2) :: l3))).filter
      (fun kv => kv.1 = nk k2)).length = 1 ∧
    (migrateTracking nk (l1 ++ (k1, v1) :: (l2 ++ (k2, v2) :: l3))).length <
      (l1 ++ (k1, v1) :: (l2 ++ (k2, v2) :: l3)).length := by
  have hgl : ((l1 ++ (k1, v1) :: (l2 ++ (k2, v2) :: l3)).filter
      (fun kv => nk kv.1 = nk k2)).getLast? = some (k2, v2) := by
    have h3 : l3.filter (fun kv => nk kv.1 = nk k2) = [] := by
      rw [List.filter_eq_nil_iff]
      intro kv hkv
      simpa using hlast kv hkv
    rw [List.filter_append, List.filter_cons_of_pos (by simpa using hcol),
      List.filter_append, List.filter_cons_of_pos (by simp), h3]
    rw [List.getLast?_append_of_ne_nil _ (by simp)]
    rw [show (k1, v1) :: (l2.filter (fun kv => nk kv.1 = nk k2) ++ [(k2, v2)]) =
      [(k1, v1)] ++ (l2.filter (fun kv => nk kv.1 = nk k2) ++ [(k2, v2)]) from rfl]
    rw [List.getLast?_append_of_ne_nil _ (by simp)]
    rw [List.getLast?_append_of_ne_nil _ (by simp)]
    rfl
  have hlook : objLookup (migrateTracking nk (l1 ++ (k1, v1) :: (l2 ++ (k2, v2) :: l3)))
      (nk k2) = some v2 := by
    unfold migrateTracking
    rw [migrate_fold_lookup nk (nk k2), hgl]
  refine ⟨hlook, ?_, ?_⟩
  · exact filter_key_nodup _ _ (migrateTracking_nodup nk _)
      (objLookup_some_mem _ _ _ hlook)
  · have hshape : l1 ++ (k1, v1) :: (l2 ++ (k2, v2) :: l3) =
        (l1 ++ [(k1, v1)]) ++ (l2 ++ (k2, v2) :: l3) := by simp
    rw [hshape]
    unfold migrateTracking
    rw [List.foldl_append]
    have hacc1 : List.foldl (fun acc kv => objSet acc (nk kv.1) kv.2) [] (l1 ++ [(k1, v1)]) =
        objSet (List.foldl (fun acc kv => objSet acc (nk kv.1) kv.2) [] l1) (nk k1) v1 := by
      rw [List.foldl_append]
      rfl
    have hmemc : nk k2 ∈ objKeys
        (List.foldl (fun acc kv => objSet acc (nk kv.1) kv.2) [] (l1 ++ [(k1, v1)])) := by
      rw [hacc1, ← hcol]
      exact mem_objKeys_objSet _ _ _
    have hstrict := migrate_fold_len_strict nk (l2 ++ (k2, v2) :: l3)
      (List.foldl (fun acc kv => objSet acc (nk kv.1) kv.2) [] (l1 ++ [(k1, v1)]))
      ⟨(k2, v2), by simp, hmemc⟩
    have hlen1 : (List.foldl (fun acc kv => objSet acc (nk kv.1) kv.2) []
        (l1 ++ [(k1, v1)])).length ≤ l1.length + 1 := by
      have := migrate_fold_len_le nk (l1 ++ [(k1, v1)]) []
      simpa using this
    have hlen2 : ((l1 ++ [(k1, v1)]) ++ (l2 ++ (k2, v2) :: l3)).length =
        l1.length + 1 + (l2.length + 1 + l3.length) := by simp; omega
    rw [hlen2]
    simp only [List.length_append, List.length_cons] at hstrict
    omega

theorem c9_migration_collision_witness :
    objLookup (migrateTracking normalizeUrlKey
      [("http://a/x#1", 10), ("http://a/x#2", 20)]) (normalizeUrlKey "http://a/x#2") =
      some 20 :=
  (c9_migration_collision normalizeUrlKey [] [] [] "http://a/x#1" "http://a/x#2" 10 20
    (by decide) (by decide) (by intro kv hkv; simp at hkv)).1

theorem cleanSuccess_response_iff (r : RespModel) :
    cleanSuccess (.response r) = true ↔ respOk r = true ∧ isLikelyHtml r = false := by
  unfold cleanSuccess
  rw [Bool.and_eq_true, Bool.not_eq_true']

/-- A fetch that is not archived only appends the URL to `failedUrls` and bumps
an error counter. -/
theorem processFile_not_clean (hash : List Nat → String) (now : Nat)
    (st : BuildState) (file : MoodleResource) (outcome : FetchOutcome)
    (h : cleanSuccess outcome = false) :
    processFile hash now st file outcome = { st with
      errorsByType := increment st.errorsByType (failKind outcome)
      failedUrls := st.failedUrls ++ [file.url] } := by
  cases outcome with
  | fetchError errName => rfl
  | response r =>
    simp only [processFile, failKind]
    by_cases hok : respOk r = false
    · rw [if_pos hok, if_pos hok]
    · have hok' : respOk r = true := by simpa using hok
      have hhtml : isLikelyHtml r = true := by
        have h2 : (respOk r && !isLikelyHtml r) = false := h
        rw [hok'] at h2
        simpa using h2
      rw [if_neg hok, if_neg hok, if_pos hhtml]

/-- A clean 2xx non-HTML fetch archives the bytes under a uniquified path and
upserts its tracking entry. -/
theorem processFile_clean (hash : List Nat → String) (now : Nat)
    (st : BuildState) (file : MoodleResource) (r : RespModel)
    (hok : respOk r = true) (hhtml : isLikelyHtml r = false) :
    processFile hash now st file (.response r) = { st with
      zipEntries := st.zipEntries ++
        [((ensureUniquePath st.existingPaths
            (joinZipPath file.path (respBaseName file r))).1, r.body)]
      existingPaths := (ensureUniquePath st.existingPaths
        (joinZipPath file.path (respBaseName file r))).2
      tracking := objSet st.tracking (normalizeUrlKey file.url)
        (successEntry hash now file r)
      fileTypes := increment st.fileTypes
        (inferStatsFileType (respBaseName file r) file.fileType) } := by
  simp only [processFile]
  rw [if_neg (by rw [hok]; simp), if_neg (by rw [hhtml]; simp)]

theorem processFile_failedUrls (hash : List Nat → String) (now : Nat)
    (st : BuildState) (file : MoodleResource) (outcome : FetchOutcome) :
    (processFile hash now st file outcome).failedUrls =
      if cleanSuccess outcome then st.failedUrls else st.failedUrls ++ [file.url] := by
  by_cases h : cleanSuccess outcome = true
  · rw [if_pos h]
    cases outcome with
    | fetchError e => simp [cleanSuccess] at h
    | response r =>
      obtain ⟨hok, hhtml⟩ := (cleanSuccess_response_iff r).mp h
      rw [processFile_clean hash now st file r hok hhtml]
  · have h' : cleanSuccess outcome = false := by simpa using h
    rw [if_neg h, processFile_not_clean hash now st file outcome h']

theorem processFile_zip_failed_len (hash : List Nat → String) (now : Nat)
    (st : BuildState) (file : MoodleResource) (outcome : FetchOutcome) :
    (processFile hash now st file outcome).zipEntries.length +
      (processFile hash now st file outcome).failedUrls.length =
      st.zipEntries.length + st.failedUrls.length + 1 := by
  by_cases h : cleanSuccess outcome = true
  · cases outcome with
    | fetchError e => simp [cleanSuccess] at h
    | response r =>
      obtain ⟨hok, hhtml⟩ := (cleanSuccess_response_iff r).mp h
      rw [processFile_clean hash now st file r hok hhtml]
      simp
      omega
  · have h' : cleanSuccess outcome = false := by simpa using h
    rw [processFile_not_clean hash now st file outcome h']
    simp
    omega

theorem processFile_tracking_not_clean (hash : List Nat → String) (now : Nat)
    (st : BuildState) (file : MoodleResource) (outcome : FetchOutcome)
    (h : cleanSuccess outcome = false) :
    (processFile hash now st file outcome).tracking = st.tracking := by
  rw [processFile_not_clean hash now st file outcome h]

theorem processAll_cons (hash : List Nat → String) (now : Nat)
    (oracle : Nat → FetchOutcome) (i : Nat) (st : BuildState)
    (f : MoodleResource) (rest : List MoodleResource) :
    processAll hash now oracle i st (f :: rest) =
      processAll hash now oracle (i + 1) (processFile hash now st f (oracle i)) rest := rfl

theorem processAll_failedUrls (hash : List Nat → String) (now : Nat)
    (oracle : Nat → FetchOutcome) :
    ∀ (fs : List MoodleResource) (i : Nat) (st : BuildState),
      (processAll hash now oracle i st fs).failedUrls =
        st.failedUrls ++ failedOf oracle i fs := by
  intro fs
  induction fs with
  | nil => intro i st; simp [processAll, failedOf]
  | cons f rest ih =>
    intro i st
    rw [processAll_cons, ih]
    rw [processFile_failedUrls]
    rw [show failedOf oracle i (f :: rest) =
      if cleanSuccess (oracle i) then failedOf oracle (i + 1) rest
      else f.url :: failedOf oracle (i + 1) rest from rfl]
    by_cases h : cleanSuccess (oracle i) = true
    · rw [if_pos h, if_pos h]
    · rw [if_neg h, if_neg h]
      simp

theorem processAll_zip_failed_len (hash : List Nat → String) (now : Nat)
    (oracle : Nat → FetchOutcome) :
    ∀ (fs : List MoodleResource) (i : Nat) (st : BuildState),
      (processAll hash now oracle i st fs).zipEntries.length +
        (processAll hash now oracle i st fs).failedUrls.length =
        st.zipEntries.length + st.failedUrls.length + fs.length := by
  intro fs
  induction fs with
  | nil => intro i st; simp [processAll]
  | cons f rest ih =>
    intro i st
    rw [processAll_cons, ih]
    rw [processFile_zip_failed_len]
    simp only [List.length_cons]
    omega

/-- Keys other than those of this run's successes are untouched in the
tracking map. -/
theorem processAll_tracking_frame (hash : List Nat → String) (now : Nat)
    (oracle : Nat → FetchOutcome) :
    ∀ (fs : List MoodleResource) (i : Nat) (st : BuildState) (c : String),
      (∀ j (hj : j < fs.length), cleanSuccess (oracle (i + j)) = true →
        c ≠ normalizeUrlKey (fs.get ⟨j, hj⟩).url) →
      objLookup (processAll hash now oracle i st fs).tracking c =
        objLookup st.tracking c := by
  intro fs
  induction fs with
  | nil => intro i st c _; rfl
  | cons f rest ih =>
    intro i st c hc
    rw [processAll_cons]
    rw [ih (i + 1) _ c (fun j hj hcl => by
      have := hc (j + 1) (by simpa using Nat.succ_lt_succ hj)
        (by rw [show i + (j + 1) = i + 1 + j by omega]; exact hcl)
      simpa using this)]
    by_cases h : cleanSuccess (oracle i) = true
    · cases houtcome : oracle i with
      | fetchError e => rw [houtcome] at h; simp [cleanSuccess] at h
      | response r =>
        rw [houtcome] at h
        obtain ⟨hok, hhtml⟩ := (cleanSuccess_response_iff r).mp h
        rw [processFile_clean hash now st f r hok hhtml]
        exact objLookup_objSet_ne _ _ _ _
          (hc 0 (by simp) (by rw [Nat.add_zero, houtcome]; exact h))
    · have h' : cleanSuccess (oracle i) = false := by simpa using h
      rw [processFile_tracking_not_clean hash now st f (oracle i) h']

/-- Each success is recorded under its normalized URL with hash, timestamp and
resolved file name (keys of the file list assumed pairwise distinct, which
`dedupeResources` guarantees). -/
theorem processAll_tracking_success (hash : List Nat → String) (now : Nat)
    (oracle : Nat → FetchOutcome) :
    ∀ (fs : List MoodleResource) (i : Nat) (st : BuildState) (j : Nat) (hj : j < fs.length)
      (r : RespModel),
      oracle (i + j) = .response r → respOk r = true → isLikelyHtml r = false →
      (∀ k (hk : k < fs.length), k ≠ j →
        normalizeUrlKey (fs.get ⟨k, hk⟩).url ≠ normalizeUrlKey (fs.get ⟨j, hj⟩).url) →
      objLookup (processAll hash now oracle i st fs).tracking
          (normalizeUrlKey (fs.get ⟨j, hj⟩).url) =
        some (successEntry hash now (fs.get ⟨j, hj⟩) r) := by
  intro fs
  induction fs with
  | nil => intro i st j hj; simp at hj
  | cons f rest ih =>
    intro i st j hj r horacle hok hhtml hdist
    cases j with
    | zero =>
      rw [Nat.add_zero] at horacle
      rw [processAll_cons]
      have hclean : cleanSuccess (oracle i) = true := by
        rw [horacle]
        exact (cleanSuccess_response_iff r).mpr ⟨hok, hhtml⟩
      rw [processAll_tracking_frame hash now oracle rest (i + 1) _ _ (fun k hk hcl => by
        have := hdist (k + 1) (by simpa using Nat.succ_lt_succ hk) (by omega)
        intro hcon
        exact this (by simpa using hcon.symm))]
      rw [horacle, processFile_clean hash now st f r hok hhtml]
      exact objLookup_objSet_self _ _ _
    | succ j' =>
      rw [processAll_cons]
      have hj' : j' < rest.length := by simpa using Nat.lt_of_succ_lt_succ hj
      have := ih (i + 1) (processFile hash now st f (oracle i)) j' hj' r
        (by rw [show i + 1 + j' = i + (j' + 1) by omega]; exact horacle) hok hhtml
        (fun k hk hkj => by
          have := hdist (k + 1) (by simpa using Nat.succ_lt_succ hk) (by omega)
          simpa using this)
      simpa using this

theorem failedOf_cons (oracle : Nat → FetchOutcome) (i : Nat) (f : MoodleResource)
    (rest : List MoodleResource) :
    failedOf oracle i (f :: rest) =
      if cleanSuccess (oracle i) then failedOf oracle (i + 1) rest
      else f.url :: failedOf oracle (i + 1) rest := rfl

theorem failedOf_all_clean (oracle : Nat → FetchOutcome) :
    ∀ (fs : List MoodleResource) (i : Nat),
      (∀ j (hj : j < fs.length), cleanSuccess (oracle (i + j)) = true) →
      failedOf oracle i fs = [] := by
  intro fs
  induction fs with
  | nil => intro i _; rfl
  | cons f rest ih =>
    intro i h
    rw [failedOf_cons]
    rw [if_pos (by
      have := h 0 (by simp)
      rwa [Nat.add_zero] at this)]
    exact ih (i + 1) (fun j hj => by
      have := h (j + 1) (by simpa using Nat.succ_lt_succ hj)
      rwa [show i + (j + 1) = i + 1 + j by omega] at this)

theorem failedOf_single (oracle : Nat → FetchOutcome) :
    ∀ (fs : List MoodleResource) (i0 j : Nat) (hj : j < fs.length),
      cleanSuccess (oracle (i0 + j)) = false →
      (∀ k (hk : k < fs.length), k ≠ j → cleanSuccess (oracle (i0 + k)) = true) →
      failedOf oracle i0 fs = [(fs.get ⟨j, hj⟩).url] := by
  intro fs
  induction fs with
  | nil => intro i0 j hj; simp at hj
  | cons f rest ih =>
    intro i0 j hj hfail hclean
    cases j with
    | zero =>
      rw [Nat.add_zero] at hfail
      rw [failedOf_cons, if_neg (by rw [hfail]; simp)]
      rw [failedOf_all_clean oracle rest (i0 + 1) (fun j' hj' => by
        have := hclean (j' + 1) (by simpa using Nat.succ_lt_succ hj') (by omega)
        rwa [show i0 + (j' + 1) = i0 + 1 + j' by omega] at this)]
      rfl
    | succ j' =>
      have hj'' : j' < rest.length := by simpa using Nat.lt_of_succ_lt_succ hj
      have hcl0 : cleanSuccess (oracle i0) = true := by
        have := hclean 0 (by simp) (by omega)
        rwa [Nat.add_zero] at this
      rw [failedOf_cons, if_pos hcl0]
      rw [ih (i0 + 1) j' hj''
        (by rwa [show i0 + 1 + j' = i0 + (j' + 1) by omega])
        (fun k hk hkj => by
          have := hclean (k + 1) (by simpa using Nat.succ_lt_succ hk) (by omega)
          rwa [show i0 + (k + 1) = i0 + 1 + k by omega] at this)]
      rfl

theorem expandPhase_all_files (expandO : MoodleResource → Option (List MoodleResource)) :
    ∀ (l : List MoodleResource) (errs : List (String × Nat)),
      (∀ r ∈ l, r.type = "file") → expandPhase expandO l errs = (l, errs) := by
  intro l
  induction l with
  | nil => intro errs _; rfl
  | cons r rest ih =>
    intro errs h
    have hne : ¬(r.type = "folder") := by
      rw [h r (List.mem_cons_self _ _)]
      decide
    simp only [expandPhase, if_neg hne]
    rw [ih errs (fun x hx => h x (List.mem_cons_of_mem _ hx))]

theorem dedupeAux_spec :
    ∀ (l : List MoodleResource) (seen : List String),
      ((dedupeAux seen l).map fun r => normalizeUrl r.url).Nodup ∧
      (∀ r ∈ dedupeAux seen l, normalizeUrl r.url ∉ seen) := by
  intro l
  induction l with
  | nil => intro seen; exact ⟨List.nodup_nil, by simp [dedupeAux]⟩
  | cons r rest ih =>
    intro seen
    by_cases h : normalizeUrl r.url ∈ seen
    · rw [show dedupeAux seen (r :: rest) = dedupeAux seen rest from by
        simp only [dedupeAux, if_pos h]]
      exact ih seen
    · rw [show dedupeAux seen (r :: rest) =
          r :: dedupeAux (normalizeUrl r.url :: seen) rest from by
        simp only [dedupeAux, if_neg h]]
      obtain ⟨hnd, hnotin⟩ := ih (normalizeUrl r.url :: seen)
      refine ⟨?_, ?_⟩
      · rw [List.map_cons, List.nodup_cons]
        refine ⟨?_, hnd⟩
        intro hcon
        rw [List.mem_map] at hcon
        obtain ⟨x, hx, hxe⟩ := hcon
        exact hnotin x hx (hxe ▸ List.mem_cons_self _ _)
      · intro x hx
        rcases List.mem_cons.mp hx with hx1 | hx2
        · rw [hx1]; exact h
        · intro hcon
          exact hnotin x hx2 (List.mem_cons_of_mem _ hcon)

theorem dedupeResources_nodup (rs : List MoodleResource) :
    ((dedupeResources rs).map fun r => normalizeUrl r.url).Nodup :=
  (dedupeAux_spec rs []).1

theorem buildZip_eq (hash : List Nat → String) (now : Nat)
    (expandO : MoodleResource → Option (List MoodleResource))
    (oracle : Nat → FetchOutcome) (store : List (String × TrackEntry))
    (rs : List MoodleResource) :
    buildZip hash now expandO oracle store rs =
      { zipEntries := (processAll hash now oracle 0 (buildState0 expandO store rs)
          (buildFiles expandO rs)).zipEntries
        failedUrls := (processAll hash now oracle 0 (buildState0 expandO store rs)
          (buildFiles expandO rs)).failedUrls
        successfulCount := (buildFiles expandO rs).length -
          (processAll hash now oracle 0 (buildState0 expandO store rs)
            (buildFiles expandO rs)).failedUrls.length
        totalFiles := (buildFiles expandO rs).length
        tracking := (processAll hash now oracle 0 (buildState0 expandO store rs)
          (buildFiles expandO rs)).tracking
        persistLog := (getTrackingM normalizeUrlKey store).2 ++
          [(processAll hash now oracle 0 (buildState0 expandO store rs)
            (buildFiles expandO rs)).tracking]
        ok := true } := rfl

/-- C1: a build over a deduped list of file resources in which exactly one
fetch fails (simulated network error: the fetch promise rejects) and all other
fetches succeed cleanly completes with `successfulCount = N - 1`, with
`failedUrls` holding exactly the failing resource's URL, with the overall
result `ok: true`, and with all `N - 1` other files archived — one file's
failure aborts no other file. -/
theorem c1_per_file_isolation (hash : List Nat → String) (now : Nat)
    (expandO : MoodleResource → Option (List MoodleResource))
    (oracle : Nat → FetchOutcome) (store : List (String × TrackEntry))
    (rs : List MoodleResource) (i : Nat) (errName : String)
    (hded : dedupeResources rs = rs)
    (hfile : ∀ r ∈ rs, r.type = "file")
    (hi : i < rs.length)
    (hfail : oracle i = .fetchError errName)
    (hsucc : ∀ j (hj : j < rs.length), j ≠ i → cleanSuccess (oracle j) = true) :
    (buildZip hash now expandO oracle store rs).successfulCount = rs.length - 1 ∧
    (buildZip hash now expandO oracle store rs).failedUrls = [(rs.get ⟨i, hi⟩).url] ∧
    (buildZip hash now expandO oracle store rs).ok = true ∧
    (buildZip hash now expandO oracle store rs).totalFiles = rs.length ∧
    (buildZip hash now expandO oracle store rs).zipEntries.length = rs.length - 1 := by
  have hfiles : buildFiles expandO rs = rs := by
    unfold buildFiles
    rw [hded, expandPhase_all_files expandO rs [] hfile]
    exact hded
  have hfailed : (processAll hash now oracle 0 (buildState0 expandO store rs)
      (buildFiles expandO rs)).failedUrls = [(rs.get ⟨i, hi⟩).url] := by
    rw [hfiles, processAll_failedUrls]
    rw [show (buildState0 expandO store rs).failedUrls = [] from rfl, List.nil_append]
    exact failedOf_single oracle rs 0 i hi
      (by rw [Nat.zero_add, hfail]; rfl)
      (fun k hk hkj => by rw [Nat.zero_add]; exact hsucc k hk hkj)
  have hz0 : (buildState0 expandO store rs).zipEntries.length = 0 := rfl
  have hf0 : (buildState0 expandO store rs).failedUrls.length = 0 := rfl
  have hblen : (buildFiles expandO rs).length = rs.length := by rw [hfiles]
  have hzlen := processAll_zip_failed_len hash now oracle (buildFiles expandO rs) 0
    (buildState0 expandO store rs)
  rw [hfailed] at hzlen
  simp only [List.length_singleton] at hzlen
  rw [buildZip_eq]
  refine ⟨?_, ?_, rfl, ?_, ?_⟩
  · show (buildFiles expandO rs).length - (processAll hash now oracle 0
      (buildState0 expandO store rs) (buildFiles expandO rs)).failedUrls.length =
      rs.length - 1
    rw [hfailed, hblen]
    rfl
  · exact hfailed
  · show (buildFiles expandO rs).length = rs.length
    rw [hfiles]
  · show (processAll hash now oracle 0 (buildState0 expandO store rs)
      (buildFiles expandO rs)).zipEntries.length = rs.length - 1
    omega

theorem c1_per_file_isolation_witness :
    (buildZip (fun _ => "h") 0 (fun _ => none)
      (fun n => if n = 0 then .fetchError "TypeError"
        else .response ⟨200, "application/pdf", none, "", [1, 2, 3]⟩)
      []
      [⟨"a", "A", "http://h/a.pdf", "file", "pdf", "P"⟩,
       ⟨"b", "B", "http://h/b.pdf", "file", "pdf", "P"⟩]).failedUrls =
      ["http://h/a.pdf"] :=
  (c1_per_file_isolation (fun _ => "h") 0 (fun _ => none)
    (fun n => if n = 0 then .fetchError "TypeError"
      else .response ⟨200, "application/pdf", none, "", [1, 2, 3]⟩)
    []
    [⟨"a", "A", "http://h/a.pdf", "file", "pdf", "P"⟩,
     ⟨"b", "B", "http://h/b.pdf", "file", "pdf", "P"⟩]
    0 "TypeError" (by decide) (by decide) (by decide) (by decide) (by decide)).2.1

/-! ### C3: HTML-body detection -/
theorem containsSeq_of_prefix {α : Type} [DecidableEq α] (pat l : List α)
    (hne : pat ≠ []) (h : pat <+: l) : containsSeq pat l = true := by
  cases l with
  | nil =>
    obtain ⟨t, ht⟩ := h
    cases pat with
    | nil => exact absurd rfl hne
    | cons a b => simp at ht
  | cons a rest =>
    unfold containsSeq
    rw [Bool.or_eq_true]
    left
    exact List.isPrefixOf_iff_prefix.mpr h

theorem isLikelyHtml_of_doctype (r : RespModel) (hlen : 20 ≤ r.body.length)
    (hpre : (r.body.map lowerByte).take 14 = doctypeMarker) :
    isLikelyHtml r = true := by
  unfold isLikelyHtml
  rw [Bool.or_eq_true]
  right
  rw [Bool.and_eq_true]
  refine ⟨by simpa using hlen, ?_⟩
  rw [Bool.or_eq_true]
  left
  apply containsSeq_of_prefix _ _ (by decide)
  rw [List.map_take]
  have h14 : ((r.body.map lowerByte).take 64).take 14 = doctypeMarker := by
    rw [List.take_take, show min 14 64 = 14 by norm_num]
    exact hpre
  rw [← h14]
  exact List.take_prefix _ _

/-- C3 counterexample: a 2xx response with non-HTML content-type whose body is
exactly the 14-byte `<!doctype html` marker — it begins with the HTML doctype
marker, yet `buildZip`'s worker archives, hashes and tracks it instead of
classifying it as `login-required`, because `isLikelyHtml` only sniffs bodies
of at least 20 bytes. -/
theorem c3_counterexample :
    respOk ⟨200, "application/octet-stream", none, "", doctypeMarker⟩ = true ∧
    (doctypeMarker.map lowerByte).take 14 = doctypeMarker ∧
    (processFile (fun _ => "h") 0 ⟨[], [], [], [], [], []⟩
      ⟨"a", "n", "http://h/a.pdf", "file", "pdf", "P"⟩
      (.response ⟨200, "application/octet-stream", none, "", doctypeMarker⟩)).failedUrls = [] ∧
    (processFile (fun _ => "h") 0 ⟨[], [], [], [], [], []⟩
      ⟨"a", "n", "http://h/a.pdf", "file", "pdf", "P"⟩
      (.response ⟨200, "application/octet-stream", none, "", doctypeMarker⟩)).zipEntries.length
      = 1 ∧
    objLookup (processFile (fun _ => "h") 0 ⟨[], [], [], [], [], []⟩
      ⟨"a", "n", "http://h/a.pdf", "file", "pdf", "P"⟩
      (.response ⟨200, "application/octet-stream", none, "", doctypeMarker⟩)).tracking
      (normalizeUrlKey "http://h/a.pdf") ≠ none := by
  decide

/-- C3 (amended): for every fetch of a file resource that returns a 2xx
response whose content-type header indicates HTML, or whose body is at least
20 bytes long and begins with the HTML doctype marker, the fetch worker
classifies the result as the distinct failure kind `likely_login_required`:
the resource's URL is appended to `failedUrls`, and the archive, tracking map
and path registry are unchanged — the bytes are not archived, not hashed, and
not recorded.  (The claim as stated omits the 20-byte minimum that
`isLikelyHtml` enforces before sniffing the body; see `c3_counterexample`.) -/
theorem c3_amended (hash : List Nat → String) (now : Nat) (st : BuildState)
    (file : MoodleResource) (r : RespModel)
    (hok : respOk r = true)
    (hhtml : containsStr "text/html" r.contentType = true ∨
      (20 ≤ r.body.length ∧ (r.body.map lowerByte).take 14 = doctypeMarker)) :
    processFile hash now st file (.response r) = { st with
      errorsByType := increment st.errorsByType "likely_login_required"
      failedUrls := st.failedUrls ++ [file.url] } := by
  have hh : isLikelyHtml r = true := by
    rcases hhtml with h | ⟨h1, h2⟩
    · unfold isLikelyHtml
      rw [h, Bool.true_or]
    · exact isLikelyHtml_of_doctype r h1 h2
  have hnc := processFile_not_clean hash now st file (.response r) (by
    rw [show cleanSuccess (.response r) = (respOk r && !isLikelyHtml r) from rfl, hh, hok]
    rfl)
  rw [hnc]
  simp only [failKind]
  rw [if_neg (by rw [hok]; simp)]

theorem c3_amended_witness :
    processFile (fun _ => "h") 0 ⟨[], [], [], [], [], []⟩
      ⟨"a", "n", "http://h/a.pdf", "file", "pdf", "P"⟩
      (.response ⟨200, "application/octet-stream", none, "",
        doctypeMarker ++ [32, 32, 32, 32, 32, 32]⟩) =
    { zipEntries := [], existingPaths := [], tracking := [],
      failedUrls := [] ++ ["http://h/a.pdf"],
      errorsByType := increment [] "likely_login_required", fileTypes := [] } :=
  c3_amended (fun _ => "h") 0 ⟨[], [], [], [], [], []⟩
    ⟨"a", "n", "http://h/a.pdf", "file", "pdf", "P"⟩
    ⟨200, "application/octet-stream", none, "", doctypeMarker ++ [32, 32, 32, 32, 32, 32]⟩
    (by decide) (Or.inr (by decide))

/-! ### C4: tracking merge and persist behavior -/
/-- C4 counterexample: with a stored tracking key that is not in canonical
form, a completed build persists the tracking map twice — once during
`getTracking`'s migration-on-read and once at the end — contradicting
"persisted exactly once per build". -/
theorem c4_counterexample :
    (buildZip (fun _ => "h") 0 (fun _ => none) (fun _ => .fetchError "e")
      [("http://h/a.pdf#frag", ⟨"http://h/a.pdf#frag", "h0", 0, "n"⟩)]
      []).persistLog.length = 2 := by
  decide

/-- C4 (amended): a completed build persists the tracking map once at the
end — plus one extra persist during load if and only if the migration-on-read
rewrote keys (with all-canonical stored keys, exactly once); the final map is
the loaded (migrated) map updated with exactly one upserted entry per
successfully archived file, keyed by the file's normalized URL and holding its
content hash, timestamp and resolved file name, while every key not belonging
to this build's successes keeps its loaded value unchanged. -/
theorem c4_tracking_merge (hash : List Nat → String) (now : Nat)
    (expandO : MoodleResource → Option (List MoodleResource))
    (oracle : Nat → FetchOutcome) (store : List (String × TrackEntry))
    (rs : List MoodleResource) :
    (buildZip hash now expandO oracle store rs).persistLog =
      (getTrackingM normalizeUrlKey store).2 ++
        [(buildZip hash now expandO oracle store rs).tracking] ∧
    (trackingChanged normalizeUrlKey store = false →
      (buildZip hash now expandO oracle store rs).persistLog =
        [(buildZip hash now expandO oracle store rs).tracking]) ∧
    (∀ c, (∀ j (hj : j < (buildFiles expandO rs).length), cleanSuccess (oracle j) = true →
        c ≠ normalizeUrlKey ((buildFiles expandO rs).get ⟨j, hj⟩).url) →
      objLookup (buildZip hash now expandO oracle store rs).tracking c =
        objLookup (getTrackingM normalizeUrlKey store).1 c) ∧
    (∀ j (hj : j < (buildFiles expandO rs).length) (r : RespModel),
      oracle j = .response r → respOk r = true → isLikelyHtml r = false →
      objLookup (buildZip hash now expandO oracle store rs).tracking
          (normalizeUrlKey ((buildFiles expandO rs).get ⟨j, hj⟩).url) =
        some (successEntry hash now ((buildFiles expandO rs).get ⟨j, hj⟩) r)) := by
  refine ⟨rfl, ?_, ?_, ?_⟩
  · intro hch
    rw [buildZip_eq]
    show (getTrackingM normalizeUrlKey store).2 ++ _ = _
    rw [getTrackingM_snd, hch]
    simp
  · intro c hc
    rw [buildZip_eq]
    show objLookup (processAll hash now oracle 0 (buildState0 expandO store rs)
      (buildFiles expandO rs)).tracking c = _
    rw [processAll_tracking_frame hash now oracle (buildFiles expandO rs) 0
      (buildState0 expandO store rs) c (fun j hj hcl => hc j hj (by
        rwa [Nat.zero_add] at hcl))]
    rfl
  · intro j hj r horacle hok hhtml
    rw [buildZip_eq]
    show objLookup (processAll hash now oracle 0 (buildState0 expandO store rs)
      (buildFiles expandO rs)).tracking
        (normalizeUrlKey ((buildFiles expandO rs).get ⟨j, hj⟩).url) =
      some (successEntry hash now ((buildFiles expandO rs).get ⟨j, hj⟩) r)
    apply processAll_tracking_success hash now oracle (buildFiles expandO rs) 0 _ j hj r
      (by rwa [Nat.zero_add]) hok hhtml
    intro k hk hkj hcon
    have hnd : ((buildFiles expandO rs).map fun x => normalizeUrl x.url).Nodup :=
      dedupeResources_nodup _
    have hkj' : k = j := by
      rw [← @List.Nodup.getElem_inj_iff _ _ hnd k (by simpa using hk) j (by simpa using hj)]
      rw [List.getElem_map, List.getElem_map]
      have hgk : (buildFiles expandO rs)[k] = (buildFiles expandO rs).get ⟨k, hk⟩ := rfl
      have hgj : (buildFiles expandO rs)[j] = (buildFiles expandO rs).get ⟨j, hj⟩ := rfl
      rw [hgk, hgj]
      exact hcon
    exact hkj hkj'

theorem c4_tracking_merge_witness :
    (buildZip (fun _ => "h") 0 (fun _ => none) (fun _ => .fetchError "e") [] []).persistLog =
      [(buildZip (fun _ => "h") 0 (fun _ => none) (fun _ => .fetchError "e") [] []).tracking] :=
  (c4_tracking_merge (fun _ => "h") 0 (fun _ => none) (fun _ => .fetchError "e") [] []).2.1
    (by decide)

/-! ### Idempotence of `normalizeUrl`

Reparsing a serialized URL recovers the same canonical serialization, so the
modelled `normalizeUrl` (and hence `normalizeUrlKey`) is idempotent — the
spec's "normalization is stable thereafter".
-/
theorem splitAtHash_no_hash : ∀ l : List Char, '#' ∉ (splitAtHash l).1 := by
  intro l
  induction l with
  | nil => simp [splitAtHash]
  | cons c t ih =>
    by_cases h : c = '#'
    · rw [h]; simp [splitAtHash]
    · simp only [splitAtHash, if_neg h]
      intro hc
      rcases List.mem_cons.mp hc with h1 | h1
      · exact h h1.symm
      · exact ih h1

theorem splitAtHash_eq_self (l : List Char) (h : '#' ∉ l) : (splitAtHash l).1 = l := by
  induction l with
  | nil => rfl
  | cons c t ih =>
    have hc : ¬(c = '#') := fun hcon => h (by rw [hcon]; exact List.mem_cons_self _ _)
    simp only [splitAtHash, if_neg hc]
    rw [show ((splitAtHash t).1.cons c) = c :: (splitAtHash t).1 from rfl]
    rw [ih fun hm => h (List.mem_cons_of_mem _ hm)]

theorem takeWhile_append_all (p : Char → Bool) :
    ∀ (a b : List Char), (∀ x ∈ a, p x = true) →
      List.takeWhile p (a ++ b) = a ++ List.takeWhile p b := by
  intro a
  induction a with
  | nil => intro b _; rfl
  | cons x t ih =>
    intro b h
    rw [List.cons_append, List.takeWhile_cons]
    rw [h x (List.mem_cons_self _ _)]
    rw [if_pos rfl, ih b fun y hy => h y (List.mem_cons_of_mem _ hy)]
    rfl

theorem takeWhile_cons_false (p : Char → Bool) (c : Char) (t : List Char)
    (h : p c = false) : List.takeWhile p (c :: t) = [] := by
  rw [List.takeWhile_cons, h]
  rfl

theorem drop_takeWhile_length (p : Char → Bool) :
    ∀ l : List Char, l.drop (l.takeWhile p).length = l.dropWhile p := by
  intro l
  induction l with
  | nil => rfl
  | cons c t ih =>
    by_cases h : p c = true
    · rw [List.takeWhile_cons, if_pos h, List.dropWhile_cons_of_pos h]
      simpa using ih
    · have h' : p c = false := by simpa using h
      rw [takeWhile_cons_false p c t h', List.dropWhile_cons_of_neg (by simp [h'])]
      rfl

theorem mem_takeWhile_sat (p : Char → Bool) :
    ∀ (l : List Char) (c : Char), c ∈ List.takeWhile p l → p c = true := by
  intro l
  induction l with
  | nil => intro c hc; simp at hc
  | cons a t ih =>
    intro c hc
    by_cases h : p a = true
    · rw [List.takeWhile_cons, if_pos h] at hc
      rcases List.mem_cons.mp hc with h1 | h1
      · rw [h1]; exact h
      · exact ih c h1
    · rw [takeWhile_cons_false p a t (by simpa using h)] at hc
      simp at hc

theorem mem_takeWhile_mem (p : Char → Bool) :
    ∀ (l : List Char) (c : Char), c ∈ List.takeWhile p l → c ∈ l := by
  intro l
  induction l with
  | nil => intro c hc; simpa using hc
  | cons a t ih =>
    intro c hc
    rw [List.takeWhile_cons] at hc
    by_cases h : p a = true
    · rw [if_pos h] at hc
      rcases List.mem_cons.mp hc with h1 | h1
      · rw [h1]; exact List.mem_cons_self _ _
      · exact List.mem_cons_of_mem _ (ih c h1)
    · rw [if_neg h] at hc
      simp at hc

/-- Inversion of a successful `parsePreFragment`. -/
theorem parsePreFragment_inv (l : List Char) (u : UrlModel)
    (hp : parsePreFragment l = some u) :
    ∃ s st rest,
      l.takeWhile isSchemeChar = s :: st ∧
      l.drop (l.takeWhile isSchemeChar).length = ':' :: '/' :: '/' :: rest ∧
      isAsciiAlpha s = true ∧
      rest.takeWhile authChar ≠ [] ∧
      u = { scheme := (s :: st).map toLowerAscii
            authority := (rest.takeWhile authChar).map toLowerAscii
            path := (rest.drop (rest.takeWhile authChar).length).takeWhile notQuery
            query := (rest.drop (rest.takeWhile authChar).length).drop
              ((rest.drop (rest.takeWhile authChar).length).takeWhile notQuery).length } := by
  unfold parsePreFragment at hp
  split at hp
  next s st rest heq1 heq2 =>
    by_cases halpha : isAsciiAlpha s = true
    · rw [if_pos halpha] at hp
      by_cases hempty : (rest.takeWhile authChar).isEmpty = true
      · rw [if_pos hempty] at hp
        exact absurd hp (by simp)
      · rw [if_neg hempty] at hp
        rw [Option.some.injEq] at hp
        refine ⟨s, st, rest, heq1, heq2, halpha, ?_, hp.symm⟩
        intro hnil
        exact hempty (by rw [hnil]; rfl)
    · rw [if_neg halpha] at hp
      exact absurd hp (by simp)
  next => exact absurd hp (by simp)

/-- `toLowerAscii` maps no character to `'/'` or `'?'`, so authority characters
keep that property. -/
theorem authChar_toLowerAscii (c : Char) (h : authChar c = true) :
    authChar (toLowerAscii c) = true := by
  unfold authChar at h ⊢
  simp only [Bool.not_eq_true', Bool.or_eq_false_iff, decide_eq_false_iff_not] at h ⊢
  exact ⟨fun hc => h.1 (toLowerAscii_eq_self_of_toNat_lt c '/' (by decide) hc),
    fun hc => h.2 (toLowerAscii_eq_self_of_toNat_lt c '?' (by decide) hc)⟩

/-- The head of a nonempty `takeWhile` is the head of the list and satisfies
the predicate. -/
theorem takeWhile_head_info (p : Char → Bool) (l : List Char)
    (h : l.takeWhile p ≠ []) :
    ∃ x, l.head? = some x ∧ (l.takeWhile p).head? = some x ∧ p x = true := by
  cases l with
  | nil => simp [List.takeWhile] at h
  | cons x xt =>
    by_cases hp : p x = true
    · exact ⟨x, rfl, by rw [List.takeWhile_cons, if_pos hp]; rfl, hp⟩
    · exfalso
      exact h (by rw [List.takeWhile_cons, if_neg hp])

/-- Reduction of `parsePreFragment` once the scheme run and the remainder are
known. -/
theorem parsePreFragment_eq (l : List Char) (sh : Char) (stl rest : List Char)
    (htw : l.takeWhile isSchemeChar = sh :: stl)
    (hdr : l.drop (l.takeWhile isSchemeChar).length = ':' :: '/' :: '/' :: rest) :
    parsePreFragment l =
      if isAsciiAlpha sh then
        if (rest.takeWhile authChar).isEmpty then none
        else
          some { scheme := (sh :: stl).map toLowerAscii
                 authority := (rest.takeWhile authChar).map toLowerAscii
                 path := (rest.drop (rest.takeWhile authChar).length).takeWhile notQuery
                 query := (rest.drop (rest.takeWhile authChar).length).drop
                   ((rest.drop (rest.takeWhile authChar).length).takeWhile notQuery).length }
      else none := by
  unfold parsePreFragment
  rw [htw] at hdr ⊢
  rw [hdr]
  rfl

/-- Re-parsing a serialized URL whose components satisfy the parser's
invariants yields exactly those components back. -/
theorem parse_serialize (sh : Char) (stl A P Q : List Char)
    (halpha : isAsciiAlpha sh = true)
    (hS : ∀ c ∈ sh :: stl, isSchemeChar c = true)
    (hA : A ≠ [])
    (hAp : ∀ c ∈ A, authChar c = true)
    (hPhead : P.head? = some '/')
    (hPq : ∀ c ∈ P, notQuery c = true)
    (hQ : Q = [] ∨ Q.head? = some '?') :
    parsePreFragment ((sh :: stl) ++ ':' :: '/' :: '/' :: (A ++ (P ++ Q))) =
      some { scheme := (sh :: stl).map toLowerAscii
             authority := A.map toLowerAscii
             path := P
             query := Q } := by
  obtain ⟨p0, pt, rfl⟩ : ∃ p0 pt, P = p0 :: pt := by
    cases P with
    | nil => simp at hPhead
    | cons p0 pt => exact ⟨p0, pt, rfl⟩
  have hp0 : p0 = '/' := by simpa using hPhead
  subst hp0
  have htw : ((sh :: stl) ++ ':' :: '/' :: '/' :: (A ++ ('/' :: pt ++ Q))).takeWhile isSchemeChar
      = sh :: stl := by
    rw [takeWhile_append_all isSchemeChar _ _ hS,
      takeWhile_cons_false _ _ _ (by decide : isSchemeChar ':' = false), List.append_nil]
  have hdr : ((sh :: stl) ++ ':' :: '/' :: '/' :: (A ++ ('/' :: pt ++ Q))).drop
      (((sh :: stl) ++ ':' :: '/' :: '/' :: (A ++ ('/' :: pt ++ Q))).takeWhile
        isSchemeChar).length = ':' :: '/' :: '/' :: (A ++ ('/' :: pt ++ Q)) := by
    rw [htw]
    exact List.drop_left _ _
  rw [parsePreFragment_eq _ sh stl (A ++ ('/' :: pt ++ Q)) htw hdr, if_pos halpha]
  have hta : (A ++ ('/' :: pt ++ Q)).takeWhile authChar = A := by
    rw [takeWhile_append_all _ _ _ hAp, List.cons_append,
      takeWhile_cons_false _ _ _ (by decide : authChar '/' = false), List.append_nil]
  have hAne : ¬(A.isEmpty = true) := by
    cases A with
    | nil => exact absurd rfl hA
    | cons a t => simp
  rw [hta, if_neg hAne]
  have hdropA : (A ++ ('/' :: pt ++ Q)).drop A.length = '/' :: pt ++ Q :=
    List.drop_left _ _
  rw [hdropA]
  have htq : Q.takeWhile notQuery = [] := by
    rcases hQ with rfl | hq
    · rfl
    · cases Q with
      | nil => rfl
      | cons q0 qt =>
        have hq0 : q0 = '?' := by simpa using hq
        subst hq0
        exact takeWhile_cons_false _ _ _ (by decide : notQuery '?' = false)
  have htp : ('/' :: pt ++ Q).takeWhile notQuery = '/' :: pt := by
    rw [takeWhile_append_all _ _ _ hPq, htq, List.append_nil]
  rw [htp]
  rw [List.drop_left]

/-- Any URL the parser accepts re-parses from its serialization, with the only
change being the empty path replaced by `/`. -/
theorem parsePreFragment_serialize (l : List Char) (u : UrlModel)
    (hp : parsePreFragment l = some u) :
    parsePreFragment (serializeUrl u) =
      some { scheme := u.scheme
             authority := u.authority
             path := if u.path.isEmpty then ['/'] else u.path
             query := u.query } := by
  obtain ⟨s, st, rest, heq1, heq2, halpha, hne, hu⟩ := parsePreFragment_inv l u hp
  have hS : ∀ c ∈ toLowerAscii s :: (st.map toLowerAscii), isSchemeChar c = true := by
    intro c hc
    have hc2 : c ∈ (s :: st).map toLowerAscii := by
      rw [List.map_cons]
      exact hc
    obtain ⟨d, hd, rfl⟩ := List.mem_map.mp hc2
    exact isSchemeChar_toLowerAscii d (mem_takeWhile_sat isSchemeChar l d (heq1 ▸ hd))
  have halpha2 : isAsciiAlpha (toLowerAscii s) = true := isAsciiAlpha_toLowerAscii s halpha
  have hA : (rest.takeWhile authChar).map toLowerAscii ≠ [] := by
    intro hcon
    exact hne (by simpa using hcon)
  have hAp : ∀ c ∈ (rest.takeWhile authChar).map toLowerAscii, authChar c = true := by
    intro c hc
    obtain ⟨d, hd, rfl⟩ := List.mem_map.mp hc
    exact authChar_toLowerAscii d (mem_takeWhile_sat authChar rest d hd)
  have hPq : ∀ c ∈ (if ((rest.drop (rest.takeWhile authChar).length).takeWhile notQuery).isEmpty
      then ['/'] else (rest.drop (rest.takeWhile authChar).length).takeWhile notQuery),
      notQuery c = true := by
    intro c hc
    by_cases he : ((rest.drop (rest.takeWhile authChar).length).takeWhile notQuery).isEmpty = true
    · rw [if_pos he] at hc
      have hc2 : c = '/' := by simpa using hc
      subst hc2
      decide
    · rw [if_neg he] at hc
      exact mem_takeWhile_sat notQuery _ c hc
  have hPhead : (if ((rest.drop (rest.takeWhile authChar).length).takeWhile notQuery).isEmpty
      then ['/'] else (rest.drop (rest.takeWhile authChar).length).takeWhile notQuery).head?
      = some '/' := by
    by_cases he : ((rest.drop (rest.takeWhile authChar).length).takeWhile notQuery).isEmpty = true
    · rw [if_pos he]
      rfl
    · rw [if_neg he]
      have hne2 : (rest.drop (rest.takeWhile authChar).length).takeWhile notQuery ≠ [] := by
        intro hcon
        exact he (by rw [hcon]; rfl)
      obtain ⟨x, hx1, hx2, hx3⟩ := takeWhile_head_info notQuery _ hne2
      have hdw : rest.drop (rest.takeWhile authChar).length = rest.dropWhile authChar :=
        drop_takeWhile_length authChar rest
      have hxa : authChar x = false := by
        apply dropWhile_head?_not authChar rest x
        rw [← hdw]
        exact hx1
      have hx4 : x = '/' := by
        unfold authChar at hxa
        unfold notQuery at hx3
        simp only [Bool.not_eq_false', Bool.or_eq_true, decide_eq_true_eq] at hxa
        rcases hxa with h1 | h1
        · exact h1
        · exact absurd h1 (by simpa using hx3)
      rw [hx2, hx4]
  have hQ : (rest.drop (rest.takeWhile authChar).length).drop
      (((rest.drop (rest.takeWhile authChar).length).takeWhile notQuery).length) = [] ∨
      ((rest.drop (rest.takeWhile authChar).length).drop
        (((rest.drop (rest.takeWhile authChar).length).takeWhile notQuery).length)).head?
        = some '?' := by
    cases hq : (rest.drop (rest.takeWhile authChar).length).drop
        (((rest.drop (rest.takeWhile authChar).length).takeWhile notQuery).length) with
    | nil => exact Or.inl rfl
    | cons q0 qt =>
      right
      have hdweq : (rest.drop (rest.takeWhile authChar).length).drop
          (((rest.drop (rest.takeWhile authChar).length).takeWhile notQuery).length) =
          (rest.drop (rest.takeWhile authChar).length).dropWhile notQuery :=
        drop_takeWhile_length notQuery _
      have hq0 : notQuery q0 = false := by
        apply dropWhile_head?_not notQuery (rest.drop (rest.takeWhile authChar).length) q0
        rw [← hdweq, hq]
        rfl
      have hq1 : q0 = '?' := by
        unfold notQuery at hq0
        simpa using hq0
      rw [hq1]
      rfl
  have key := parse_serialize (toLowerAscii s) (st.map toLowerAscii)
    ((rest.takeWhile authChar).map toLowerAscii)
    (if ((rest.drop (rest.takeWhile authChar).length).takeWhile notQuery).isEmpty then ['/']
      else (rest.drop (rest.takeWhile authChar).length).takeWhile notQuery)
    ((rest.drop (rest.takeWhile authChar).length).drop
      (((rest.drop (rest.takeWhile authChar).length).takeWhile notQuery).length))
    halpha2 hS hA hAp hPhead hPq hQ
  subst hu
  dsimp only
  have harg : serializeUrl
      { scheme := (s :: st).map toLowerAscii
        authority := (rest.takeWhile authChar).map toLowerAscii
        path := (rest.drop (rest.takeWhile authChar).length).takeWhile notQuery
        query := (rest.drop (rest.takeWhile authChar).length).drop
          ((rest.drop (rest.takeWhile authChar).length).takeWhile notQuery).length } =
      (toLowerAscii s :: st.map toLowerAscii) ++ ':' :: '/' :: '/' ::
        (((rest.takeWhile authChar).map toLowerAscii) ++
          ((if ((rest.drop (rest.takeWhile authChar).length).takeWhile notQuery).isEmpty
            then ['/'] else (rest.drop (rest.takeWhile authChar).length).takeWhile notQuery) ++
            ((rest.drop (rest.takeWhile authChar).length).drop
              (((rest.drop (rest.takeWhile authChar).length).takeWhile notQuery).length)))) := by
    simp only [serializeUrl, List.map_cons, List.cons_append, List.append_assoc]
  rw [harg, key]
  rw [show (toLowerAscii s :: st.map toLowerAscii) = (s :: st).map toLowerAscii from rfl,
    map_toLowerAscii_idem (s :: st), map_toLowerAscii_idem (rest.takeWhile authChar)]

/-- Replacing an empty path by `/` does not change the serialization. -/
theorem serializeUrl_normalize_path (u : UrlModel) :
    serializeUrl { scheme := u.scheme, authority := u.authority
                   path := if u.path.isEmpty then ['/'] else u.path
                   query := u.query } = serializeUrl u := by
  cases hp : u.path with
  | nil => simp [serializeUrl, hp]
  | cons p0 pt => simp [serializeUrl, hp]

/-- If the parsed input contains no `#`, neither does the serialization of the
parse result. -/
theorem serializeUrl_no_hash (l : List Char) (u : UrlModel) (hl : '#' ∉ l)
    (hp : parsePreFragment l = some u) : '#' ∉ serializeUrl u := by
  obtain ⟨s, st, rest, heq1, heq2, halpha, hne, hu⟩ := parsePreFragment_inv l u hp
  have hrest : ∀ c ∈ rest, c ∈ l := by
    intro c hc
    apply List.drop_subset (l.takeWhile isSchemeChar).length l
    rw [heq2]
    exact List.mem_cons_of_mem _ (List.mem_cons_of_mem _ (List.mem_cons_of_mem _ hc))
  have hsst : ∀ c ∈ s :: st, c ∈ l := by
    intro c hc
    exact mem_takeWhile_mem isSchemeChar l c (heq1 ▸ hc)
  have hmapped : ∀ (m : List Char), (∀ c ∈ m, c ∈ l) → '#' ∉ m.map toLowerAscii := by
    intro m hm hcon
    obtain ⟨d, hd, hde⟩ := List.mem_map.mp hcon
    have : d = '#' := toLowerAscii_eq_self_of_toNat_lt d '#' (by decide) hde
    exact hl (this ▸ hm d hd)
  subst hu
  intro hmem
  rw [serializeUrl] at hmem
  dsimp only at hmem
  simp only [List.mem_append, List.mem_cons] at hmem
  rcases hmem with ((hm | hm) | hm) | hm
  · exact hmapped (s :: st) hsst hm
  · rcases hm with h | h | h | h
    · exact absurd h (by decide)
    · exact absurd h (by decide)
    · exact absurd h (by decide)
    · exact hmapped (rest.takeWhile authChar)
        (fun c hc => hrest c (mem_takeWhile_mem authChar rest c hc)) h
  · by_cases he : ((rest.drop (rest.takeWhile authChar).length).takeWhile notQuery).isEmpty = true
    · rw [if_pos he] at hm
      have : ('#' : Char) = '/' := by simpa using hm
      exact absurd this (by decide)
    · rw [if_neg he] at hm
      have h1 : ('#' : Char) ∈ rest.drop (rest.takeWhile authChar).length :=
        mem_takeWhile_mem notQuery _ _ hm
      have h2 : ('#' : Char) ∈ rest := List.drop_subset _ _ h1
      exact hl (hrest _ h2)
  · have h1 : ('#' : Char) ∈ rest.drop (rest.takeWhile authChar).length :=
      List.drop_subset _ _ hm
    have h2 : ('#' : Char) ∈ rest := List.drop_subset _ _ h1
    exact hl (hrest _ h2)

/-- `normalizeUrl` is idempotent: normalizing an already-normalized URL
changes nothing.  (On parse failure the input is returned unchanged, and a
successful parse re-parses from its own serialization.) -/
theorem normalizeUrl_idem (s : String) : normalizeUrl (normalizeUrl s) = normalizeUrl s := by
  cases hp : parsePreFragment (splitAtHash s.data).1 with
  | none =>
    have h1 : normalizeUrl s = s := by
      unfold normalizeUrl
      rw [hp]
    rw [h1]
    exact h1
  | some u =>
    have h1 : normalizeUrl s = ⟨serializeUrl u⟩ := by
      unfold normalizeUrl
      rw [hp]
    have hnh : '#' ∉ serializeUrl u :=
      serializeUrl_no_hash _ u (splitAtHash_no_hash s.data) hp
    have hsp : (splitAtHash (serializeUrl u)).1 = serializeUrl u :=
      splitAtHash_eq_self _ hnh
    have h2 : normalizeUrl ⟨serializeUrl u⟩ =
        ⟨serializeUrl { scheme := u.scheme, authority := u.authority
                        path := if u.path.isEmpty then ['/'] else u.path
                        query := u.query }⟩ := by
      unfold normalizeUrl
      rw [show String.data ⟨serializeUrl u⟩ = serializeUrl u from rfl, hsp,
        parsePreFragment_serialize _ u hp]
    rw [h1, h2, serializeUrl_normalize_path]

/-- C5: loading the tracking map migrates legacy keys through
`normalizeUrlKey`: every key of the returned map is canonical (a fixed point of
the normalization, since `normalizeUrl` is idempotent); if every stored key is
already canonical no persist call is made; if any stored key differs the
corrected map is persisted exactly once before being returned; and loading the
migrated result again triggers no further rewrite and returns the same map —
the migration is idempotent. -/
theorem c5_tracking_migration {V : Type} (store : List (String × V)) :
    (∀ k ∈ objKeys (getTrackingM normalizeUrlKey store).1, normalizeUrlKey k = k) ∧
    ((∀ kv ∈ store, normalizeUrlKey kv.1 = kv.1) →
      (getTrackingM normalizeUrlKey store).2 = []) ∧
    ((∃ kv ∈ store, normalizeUrlKey kv.1 ≠ kv.1) →
      (getTrackingM normalizeUrlKey store).2 = [(getTrackingM normalizeUrlKey store).1]) ∧
    getTrackingM normalizeUrlKey (getTrackingM normalizeUrlKey store).1 =
      ((getTrackingM normalizeUrlKey store).1, []) :=
  tracking_migration_param normalizeUrlKey store (fun s => normalizeUrl_idem s)

theorem c2_zip_stream_roundtrip_witness :
    (((List.replicate (2 * 1048576) 0).drop (0 * ZIP_CHUNK_SIZE)).take ZIP_CHUNK_SIZE).length
      = ZIP_CHUNK_SIZE :=
  (c2_zip_stream_roundtrip (List.replicate (2 * 1048576) 0)).2.2.1 0
    (by rw [List.length_replicate]; decide)

theorem c5_tracking_migration_witness :
    (getTrackingM normalizeUrlKey [("http://h/a.pdf#x", 0)]).2 =
      [(getTrackingM normalizeUrlKey [("http://h/a.pdf#x", 0)]).1] :=
  (c5_tracking_migration [("http://h/a.pdf#x", 0)]).2.2.1
    ⟨("http://h/a.pdf#x", 0), List.mem_singleton_self _, by decide⟩

end MoodleDl
